import Mathlib

/-!
Formal verification of the vector-index core described in the repository
specification, against the code available in the repository (the data-driven
test harness and validation code in `pkg/sql/opt/cat/policy.go`, second
document: package `vecindex`).  The index engine itself (`VectorIndex`,
`Insert`, `Delete`, `Search`, the fixup processor and the randomizer) is not
part of the source tree here — only its tests, callers and validators are —
so those parts are modelled from the specification, as marked in the doc
comments below.  Machine floating-point numbers are modelled by exact
rationals (`ℚ`); the one place where a non-finite float value (NaN) matters
is modelled explicitly with `Option ℚ`.
-/

namespace VecIndex

/-- A `PrimaryKey` is an opaque byte string (Go `[]byte`); modelled as a list
of naturals. -/
abbrev PrimaryKey := List Nat

/-- A `PartitionKey` is an opaque integer identifier of a tree node. -/
abbrev PartitionKey := Nat

/-- Full vectors; Go `vector.T` (`[]float32`), modelled over `ℚ`. -/
abbrev Vec := List ℚ

/-- Lexicographic byte-string comparison, as Go's `bytes.Compare(a, b) < 0`
(used by `vecstore.ChildKey.Compare` on primary keys). -/
def keyLtb : List Nat → List Nat → Bool
  | [], [] => false
  | [], _ :: _ => true
  | _ :: _, [] => false
  | a :: as, b :: bs => if a < b then true else if b < a then false else keyLtb as bs

/-- `num32.L2SquaredDistance`: the squared Euclidean distance between two
vectors, Σ (aᵢ - bᵢ)². -/
def l2sq (a b : Vec) : ℚ := (List.zipWith (fun x y => (x - y) * (x - y)) a b).sum

/-- `vecstore.VectorWithKey` (a key together with its full vector); in the
recall computation the keys are always primary keys. -/
structure VectorWithKey where
  key : PrimaryKey
  vector : Vec
deriving DecidableEq

instance : Inhabited VectorWithKey := ⟨⟨[], []⟩⟩

/-! ### The (distance, key) strict order used for ranking

`testState.Recall`'s `calcTruth` ranks vectors by squared distance to the
query, breaking ties by primary-key byte comparison.  `entryLT` is that
strict order on `(distance, key)` pairs. -/

/-- Strict "closer to the query, ties by lower key" ordering on
(distance, key) pairs, exactly as in `calcTruth`'s comparison closure. -/
def entryLT (a b : ℚ × PrimaryKey) : Prop :=
  a.1 < b.1 ∨ (a.1 = b.1 ∧ keyLtb a.2 b.2 = true)

instance : DecidableRel entryLT := fun a b => by
  unfold entryLT; infer_instance

theorem keyLtb_asymm : ∀ {a b : List Nat}, keyLtb a b = true → keyLtb b a = true → False
  | [], [], h, _ => by simp [keyLtb] at h
  | [], _ :: _, _, h' => by simp [keyLtb] at h'
  | _ :: _, [], h, _ => by simp [keyLtb] at h
  | a :: as, b :: bs, h, h' => by
    by_cases hab : a < b
    · have hba : ¬ b < a := Nat.lt_asymm hab
      simp [keyLtb, hab, hba] at h'
    · by_cases hba : b < a
      · simp [keyLtb, hab, hba] at h
      · simp [keyLtb, hab, hba] at h h'
        exact keyLtb_asymm h h'

theorem keyLtb_conn : ∀ {a b : List Nat}, keyLtb a b = false → keyLtb b a = false → a = b
  | [], [], _, _ => rfl
  | [], _ :: _, h, _ => by simp [keyLtb] at h
  | _ :: _, [], _, h' => by simp [keyLtb] at h'
  | a :: as, b :: bs, h, h' => by
    by_cases hab : a < b
    · simp [keyLtb, hab] at h
    · by_cases hba : b < a
      · simp [keyLtb, hba, Nat.lt_asymm hba] at h'
      · have : a = b := Nat.le_antisymm (Nat.le_of_not_lt hba) (Nat.le_of_not_lt hab)
        subst this
        simp [keyLtb, hab] at h h'
        rw [keyLtb_conn h h']

theorem keyLtb_trans : ∀ {a b c : List Nat},
    keyLtb a b = true → keyLtb b c = true → keyLtb a c = true
  | [], [], _, h, _ => by simp [keyLtb] at h
  | [], _ :: _, [], _, h' => by simp [keyLtb] at h'
  | [], _ :: _, _ :: _, _, _ => by simp [keyLtb]
  | _ :: _, [], _, h, _ => by simp [keyLtb] at h
  | _ :: _, _ :: _, [], _, h' => by simp [keyLtb] at h'
  | a :: as, b :: bs, c :: cs, h, h' => by
    by_cases hab : a < b
    · by_cases hbc : b < c
      · simp [keyLtb, Nat.lt_trans hab hbc]
      · by_cases hcb : c < b
        · simp [keyLtb, hbc, hcb] at h'
        · have hbceq : b = c := Nat.le_antisymm (Nat.le_of_not_lt hcb) (Nat.le_of_not_lt hbc)
          subst hbceq
          simp [keyLtb, hab]
    · by_cases hba : b < a
      · simp [keyLtb, hab, hba] at h
      · have habeq : a = b := Nat.le_antisymm (Nat.le_of_not_lt hba) (Nat.le_of_not_lt hab)
        subst habeq
        simp only [keyLtb, if_neg hab] at h
        by_cases hac : a < c
        · simp [keyLtb, hac]
        · by_cases hca : c < a
          · simp [keyLtb, hac, hca] at h'
          · simp only [keyLtb, if_neg hac, if_neg hca] at h' ⊢
            exact keyLtb_trans h h'

theorem entryLT_asymm {a b : ℚ × PrimaryKey} (h : entryLT a b) (h' : entryLT b a) : False := by
  rcases h with h | ⟨he, hk⟩
  · rcases h' with h' | ⟨he', _⟩
    · exact absurd h' (lt_asymm h)
    · exact absurd h (he' ▸ lt_irrefl _)
  · rcases h' with h' | ⟨_, hk'⟩
    · exact absurd h' (he ▸ lt_irrefl _)
    · exact keyLtb_asymm hk hk'

theorem entryLT_conn {a b : ℚ × PrimaryKey} (h : ¬ entryLT a b) (h' : ¬ entryLT b a) :
    a = b := by
  have h1 : ¬ a.1 < b.1 := fun hc => h (Or.inl hc)
  have h2 : ¬ b.1 < a.1 := fun hc => h' (Or.inl hc)
  have he : a.1 = b.1 := le_antisymm (le_of_not_lt h2) (le_of_not_lt h1)
  have hk1 : keyLtb a.2 b.2 = false := by
    cases hc : keyLtb a.2 b.2
    · rfl
    · exact absurd (Or.inr ⟨he, hc⟩) h
  have hk2 : keyLtb b.2 a.2 = false := by
    cases hc : keyLtb b.2 a.2
    · rfl
    · exact absurd (Or.inr ⟨he.symm, hc⟩) h'
  have := keyLtb_conn hk1 hk2
  exact Prod.ext he this

theorem entryLT_trans {a b c : ℚ × PrimaryKey} (h : entryLT a b) (h' : entryLT b c) :
    entryLT a c := by
  rcases h with h | ⟨he, hk⟩
  · rcases h' with h' | ⟨he', _⟩
    · exact Or.inl (lt_trans h h')
    · exact Or.inl (he' ▸ h)
  · rcases h' with h' | ⟨he', hk'⟩
    · exact Or.inl (he ▸ h')
    · exact Or.inr ⟨he.trans he', keyLtb_trans hk hk'⟩

/-- The non-strict "may come before" ordering on (distance, key) pairs:
`a` may precede `b` when `b` is not strictly closer. A stable sort under
this relation is exactly what Go's `sort.SliceStable` with the strict
comparator produces. -/
def entryLE (a b : ℚ × PrimaryKey) : Prop := ¬ entryLT b a

instance : DecidableRel entryLE := fun a b => by
  unfold entryLE; infer_instance

instance : IsTotal (ℚ × PrimaryKey) entryLE :=
  ⟨fun a b => by
    by_cases h : entryLT b a
    · exact Or.inr fun h' => entryLT_asymm h h'
    · exact Or.inl h⟩

instance : IsTrans (ℚ × PrimaryKey) entryLE :=
  ⟨fun a b c hab hbc => by
    intro hca
    by_cases hcb : entryLT c b
    · exact hbc hcb
    · by_cases hbc' : entryLT b c
      · exact hab (entryLT_trans hbc' hca)
      · have hbceq : b = c := entryLT_conn hbc' hcb
        exact hab (by rw [hbceq]; exact hca)⟩

/-! ### `calcTruth` — the reference truth computation in `testState.Recall`

Embeds the `calcTruth` closure: per-offset squared distances, a stable sort
of the offsets by (distance, key), and the first `MaxResults` keys. -/

/-- The (distance, key) pair of offset `i`, as the sort comparator in
`calcTruth` reads it: `distances[offsets[i]]` paired with
`data[offsets[i]].Key`. -/
def truthEntry (queryVector : Vec) (data : List VectorWithKey) (i : ℕ) : ℚ × PrimaryKey :=
  ((data.map (fun d => l2sq queryVector d.vector)).getD i 0,
    (data.getD i default).key)

/-- The comparator `calcTruth` hands to `sort.SliceStable`, in the
non-strict form a stable sort realizes: offset `i` may precede offset `j`
when entry `j` is not strictly (distance, key)-below entry `i`. -/
def calcTruthLe (queryVector : Vec) (data : List VectorWithKey) (i j : ℕ) : Prop :=
  ¬ entryLT (truthEntry queryVector data j) (truthEntry queryVector data i)

instance (queryVector : Vec) (data : List VectorWithKey) :
    DecidableRel (calcTruthLe queryVector data) := fun i j => by
  unfold calcTruthLe; infer_instance

/-- `calcTruth` from `testState.Recall`: compute each data vector's squared
distance to the query, stable-sort the offsets `0..len(data)` by
(distance, then key comparison), and read off the first `MaxResults`
primary keys.  When `MaxResults > len(data)` the Go loop indexes
`offsets[i]` out of range and panics; that branch is modelled by `none`. -/
def calcTruth (maxResults : ℕ) (queryVector : Vec) (data : List VectorWithKey) :
    Option (List PrimaryKey) :=
  if maxResults ≤ data.length then
    some (((List.insertionSort (calcTruthLe queryVector data)
        (List.range data.length)).take maxResults).map
      (fun i => (data.getD i default).key))
  else none

/-- The (distance, key) pair of a data entry itself. -/
def dataEntry (queryVector : Vec) (d : VectorWithKey) : ℚ × PrimaryKey :=
  (l2sq queryVector d.vector, d.key)

/-- The `calcTruth` ordering transported from offsets to the data entries
they denote: exact squared distance first, primary-key bytes second. -/
def dataLe (queryVector : Vec) (a b : VectorWithKey) : Prop :=
  ¬ entryLT (dataEntry queryVector b) (dataEntry queryVector a)

instance (queryVector : Vec) : DecidableRel (dataLe queryVector) := fun a b => by
  unfold dataLe; infer_instance

instance (queryVector : Vec) : IsTotal VectorWithKey (dataLe queryVector) :=
  ⟨fun a b => IsTotal.total (r := entryLE) (dataEntry queryVector a) (dataEntry queryVector b)⟩

instance (queryVector : Vec) : IsTrans VectorWithKey (dataLe queryVector) :=
  ⟨fun a b c hab hbc =>
    IsTrans.trans (r := entryLE)
      (dataEntry queryVector a) (dataEntry queryVector b) (dataEntry queryVector c) hab hbc⟩

theorem truthEntry_eq_dataEntry (queryVector : Vec) (data : List VectorWithKey) {i : ℕ}
    (h : i < data.length) :
    truthEntry queryVector data i = dataEntry queryVector (data.getD i default) := by
  have hm : i < (data.map (fun d => l2sq queryVector d.vector)).length := by
    simpa using h
  unfold truthEntry dataEntry
  rw [List.getD_eq_getElem _ _ hm, List.getElem_map, List.getD_eq_getElem _ _ h]

theorem map_getD_range {α : Type} (l : List α) (d : α) :
    (List.range l.length).map (fun i => l.getD i d) = l := by
  apply List.ext_getElem
  · simp
  · intro i h1 h2
    simp only [List.getElem_map, List.getElem_range]
    exact List.getD_eq_getElem _ _ h2

theorem insertionSort_offsets (queryVector : Vec) (data : List VectorWithKey) :
    (List.insertionSort (calcTruthLe queryVector data) (List.range data.length)).map
        (fun i => data.getD i default)
      = List.insertionSort (dataLe queryVector) data := by
  have hl : ∀ i ∈ List.range data.length, ∀ j ∈ List.range data.length,
      calcTruthLe queryVector data i j ↔
        dataLe queryVector (data.getD i default) (data.getD j default) := by
    intro i hi j hj
    have hi' := List.mem_range.mp hi
    have hj' := List.mem_range.mp hj
    unfold calcTruthLe dataLe
    rw [truthEntry_eq_dataEntry _ _ hi', truthEntry_eq_dataEntry _ _ hj']
  have hms := List.map_insertionSort (r := calcTruthLe queryVector data)
    (s := dataLe queryVector) (fun i => data.getD i default) (List.range data.length) hl
  rw [hms, map_getD_range]

/-- **C4**: the reference truth computation (`calcTruth` with
`MaxResults = k`, for `k` within the data-set size) returns the keys of `k`
data entries that are sorted ascending by exact squared Euclidean distance
to the query with ties broken by primary-key byte order, and that are
minimal under exactly that ordering among all data entries: every chosen
entry precedes (distance first, then key) every entry left out.  The final
reranked search results use the same (exact distance, key) ordering; see
`beamSearch_rerank_sorted_aux` for the sortedness of the model's rerank
pass, which uses this very relation. -/
theorem calcTruth_minimal (queryVector : Vec) (data : List VectorWithKey) (k : ℕ)
    (hk : k ≤ data.length) :
    ∃ chosen rest : List VectorWithKey,
      calcTruth k queryVector data = some (chosen.map VectorWithKey.key) ∧
      chosen.length = k ∧
      (chosen ++ rest).Perm data ∧
      List.Sorted (dataLe queryVector) chosen ∧
      ∀ c ∈ chosen, ∀ r ∈ rest, dataLe queryVector c r := by
  classical
  set sortedData := List.insertionSort (dataLe queryVector) data with hsd
  have hlen : sortedData.length = data.length := by
    rw [hsd, List.length_insertionSort]
  refine ⟨sortedData.take k, sortedData.drop k, ?_, ?_, ?_, ?_, ?_⟩
  · unfold calcTruth
    rw [if_pos hk]
    congr 1
    have : (fun i => (data.getD i default).key)
        = VectorWithKey.key ∘ (fun i => data.getD i default) := rfl
    rw [this, ← List.map_map, List.map_take, insertionSort_offsets]
  · rw [List.length_take, hlen]
    exact Nat.min_eq_left hk
  · rw [List.take_append_drop]
    exact List.perm_insertionSort _ _
  · exact (List.sorted_insertionSort _ _).sublist (List.take_sublist _ _)
  · have hp : List.Pairwise (dataLe queryVector) sortedData :=
      List.sorted_insertionSort _ _
    rw [← List.take_append_drop k sortedData] at hp
    exact fun c hc r hr => (List.pairwise_append.mp hp).2.2 c hc r hr

/-- Witness for `calcTruth_minimal` at a concrete one-element data set. -/
theorem calcTruth_minimal_witness :
    ∃ chosen rest : List VectorWithKey,
      calcTruth 1 [0] [⟨[5], [1]⟩] = some (chosen.map VectorWithKey.key) ∧
      chosen.length = 1 ∧
      (chosen ++ rest).Perm [⟨[5], [1]⟩] ∧
      List.Sorted (dataLe [0]) chosen ∧
      ∀ c ∈ chosen, ∀ r ∈ rest, dataLe [0] c r :=
  calcTruth_minimal [0] [⟨[5], [1]⟩] 1 (by decide)

/-- **C10**: with at least `k` vectors in the data set, `calcTruth` returns
exactly `k` keys; with fewer than `k` vectors (here `k = len(data) + 1`)
the offset indexing is out of range — the panicking branch, modelled as
`none`, is reached. -/
theorem calcTruth_requires_k_vectors (k : ℕ) (queryVector : Vec)
    (data : List VectorWithKey) (hk : k ≤ data.length) :
    (∃ ts, calcTruth k queryVector data = some ts ∧ ts.length = k) ∧
      calcTruth (data.length + 1) queryVector data = none := by
  constructor
  · refine ⟨_, by unfold calcTruth; rw [if_pos hk], ?_⟩
    rw [List.length_map, List.length_take, List.length_insertionSort, List.length_range]
    exact Nat.min_eq_left hk
  · unfold calcTruth
    rw [if_neg (by omega)]

/-- Witness for `calcTruth_requires_k_vectors` at a one-element data set:
one result is returned for `k = 1` and the out-of-range branch is reached
for `k = 2`. -/
theorem calcTruth_requires_k_vectors_witness :
    (∃ ts, calcTruth 1 [0] [⟨[5], [1]⟩] = some ts ∧ ts.length = 1) ∧
      calcTruth 2 [0] [⟨[5], [1]⟩] = none := by
  have h := calcTruth_requires_k_vectors 1 [0] [⟨[5], [1]⟩] (by decide)
  simpa using h

/-! ### `findMAP` — recall evaluation (C8) -/

/-- Go `float64` division of a (nonnegative, integer-valued) numerator by a
slice length: when the length is zero the IEEE-754 result is non-finite
(NaN for `0/0`, as in `findMAP` on empty slices) — modelled as `none`. -/
def goDivByLen (a : ℚ) (n : ℕ) : Option ℚ :=
  if n = 0 then none else some (a / n)

/-- `findMAP` from the source: panics (modelled as `Except.error`) when the
two slices differ in length; otherwise builds the membership set of
`prediction` and returns the number of `truth` keys found in it, divided by
`len(truth)` with Go float semantics. -/
def findMAP (prediction truth : List PrimaryKey) : Except String (Option ℚ) :=
  if prediction.length ≠ truth.length then
    Except.error "prediction and truth sets are not same length"
  else
    Except.ok (goDivByLen (truth.countP (fun t => decide (t ∈ prediction))) truth.length)

/-- **C8 (counterexample)**: on two empty slices the lengths are equal, so
`findMAP` does not panic, yet it evaluates `0.0 / 0.0`, whose Go `float64`
value is NaN (modelled `none`) — not a value in `[0, 1]` as the claim
states. -/
theorem findMAP_nan_on_empty : findMAP [] [] = Except.ok none := rfl

/-- **C8 (amended)**: `findMAP` panics exactly when the two slices have
different lengths; when the lengths are equal and nonzero it returns the
fraction of truth keys that also occur in the prediction, a rational in
`[0, 1]`; when both slices are empty the division `0/0` yields NaN. -/
theorem findMAP_spec (prediction truth : List PrimaryKey) :
    (prediction.length ≠ truth.length →
      findMAP prediction truth =
        Except.error "prediction and truth sets are not same length") ∧
    (prediction.length = truth.length → truth ≠ [] →
      ∃ q : ℚ, findMAP prediction truth = Except.ok (some q) ∧
        q = ((truth.countP (fun t => decide (t ∈ prediction)) : ℕ) : ℚ) / truth.length ∧
        0 ≤ q ∧ q ≤ 1) := by
  constructor
  · intro h
    unfold findMAP
    rw [if_pos h]
  · intro heq hne
    have hn : truth.length ≠ 0 := fun hc => hne (List.eq_nil_of_length_eq_zero hc)
    have hnpos : (0 : ℚ) < truth.length := by
      have : 0 < truth.length := Nat.pos_of_ne_zero hn
      exact_mod_cast this
    refine ⟨_, ?_, rfl, ?_, ?_⟩
    · unfold findMAP goDivByLen
      rw [if_neg (by omega), if_neg hn]
    · positivity
    · rw [div_le_one hnpos]
      exact_mod_cast List.countP_le_length _

/-- Witness for `findMAP_spec` on equal-length, nonempty slices. -/
theorem findMAP_spec_witness :
    ∃ q : ℚ, findMAP [[1]] [[1]] = Except.ok (some q) ∧ 0 ≤ q ∧ q ≤ 1 := by
  obtain ⟨q, h1, _, h3, h4⟩ := (findMAP_spec [[1]] [[1]]).2 rfl (by decide)
  exact ⟨q, h1, h3, h4⟩

/-! ### Vector randomizer (C2) -/

/-- Modelled from the spec: the index's `randomizeVector` applies a fixed,
seed-derived orthogonal rotation to a vector.  The rotation matrix is
precomputed at index construction from the seed, so the function is a pure,
deterministic function of the constructed index.  Exact rational arithmetic
stands in for `float32`. -/
def randomizeVector {n : ℕ} (rot : Matrix (Fin n) (Fin n) ℚ) (v : Fin n → ℚ) : Fin n → ℚ :=
  rot.mulVec v

/-- Modelled from the spec: the index's `unRandomizeVector` applies the
inverse transform — multiplication by the transpose of the (orthogonal)
rotation — recovering the original vector. -/
def unRandomizeVector {n : ℕ} (rot : Matrix (Fin n) (Fin n) ℚ) (v : Fin n → ℚ) :
    Fin n → ℚ :=
  rot.transpose.mulVec v

/-- **C2**: for every vector `v`, `unRandomizeVector (randomizeVector v)`
recovers `v` — exactly in the idealized arithmetic, hence in particular
component-wise within the 1e-5 tolerance checked by `TestRandomizeVector`.
Both functions are pure functions of the index's fixed rotation (determined
by its construction seed), hence deterministic. -/
theorem unRandomize_randomize {n : ℕ} (rot : Matrix (Fin n) (Fin n) ℚ)
    (horth : rot.transpose * rot = 1) (v : Fin n → ℚ) :
    unRandomizeVector rot (randomizeVector rot v) = v ∧
      ∀ i, |unRandomizeVector rot (randomizeVector rot v) i - v i| ≤ 1 / 100000 := by
  have hr : unRandomizeVector rot (randomizeVector rot v) = v := by
    unfold unRandomizeVector randomizeVector
    rw [Matrix.mulVec_mulVec, horth, Matrix.one_mulVec]
  refine ⟨hr, fun i => ?_⟩
  rw [hr, sub_self, abs_zero]
  norm_num

/-- Witness for `unRandomize_randomize` at a concrete rotation (a 2-D
rotation with rational entries) and a concrete vector. -/
theorem unRandomize_randomize_witness :
    (Matrix.transpose !![(3:ℚ)/5, 4/5; -(4/5), 3/5] * !![(3:ℚ)/5, 4/5; -(4/5), 3/5]
        = 1) ∧
      unRandomizeVector !![(3:ℚ)/5, 4/5; -(4/5), 3/5]
          (randomizeVector !![(3:ℚ)/5, 4/5; -(4/5), 3/5] ![1, 2]) = ![1, 2] := by
  have htr : Matrix.transpose !![(3:ℚ)/5, 4/5; -(4/5), 3/5]
      = !![(3:ℚ)/5, -(4/5); 4/5, 3/5] := by
    ext i j
    fin_cases i <;> fin_cases j <;> rfl
  have horth : Matrix.transpose !![(3:ℚ)/5, 4/5; -(4/5), 3/5]
      * !![(3:ℚ)/5, 4/5; -(4/5), 3/5] = 1 := by
    rw [htr]
    ext i j
    fin_cases i <;> fin_cases j <;>
      simp [Matrix.mul_apply, Fin.sum_univ_two, Matrix.one_apply] <;> norm_num
  exact ⟨horth, (unRandomize_randomize _ horth ![1, 2]).1⟩

/-! ### The partition tree / index engine

The `VectorIndex` implementation is not part of this source tree — only its
tests, callers and validators are — so the engine (state, insert descent,
split fixups) is modelled from the specification; the level-by-level
traversal `traverseLoop` below, in contrast, is embedded from the source's
`validateIndex` / `testState.ValidateTree`. -/

/-- `vecstore.ChildKey`: a tagged union — either a partition reference
(used at internal levels) or a primary-key reference (leaf level). -/
inductive ChildKey where
  | partitionKey (pk : PartitionKey)
  | primaryKey (k : PrimaryKey)
deriving DecidableEq

/-- A partition: centroid, level number (0 = leaf) and ordered child
keys.  The quantized encodings are not modelled (the quantizer is a
pluggable component excluded from the core's scope). -/
structure Partition where
  level : ℕ
  centroid : Vec
  childKeys : List ChildKey
deriving DecidableEq

/-- `RootKey`: the reserved, permanent identifier of the tree root. -/
def RootKey : PartitionKey := 1

abbrev PartitionList := List (PartitionKey × Partition)
abbrev VectorList := List (PrimaryKey × Vec)

/-- Association-list lookup for partitions (the store's `GetPartition`). -/
def lookupP : PartitionList → PartitionKey → Option Partition
  | [], _ => none
  | e :: rest, pk => if e.1 = pk then some e.2 else lookupP rest pk

/-- Association-list lookup for full vectors. -/
def lookupV : VectorList → PrimaryKey → Option Vec
  | [], _ => none
  | e :: rest, k => if e.1 = k then some e.2 else lookupV rest k

/-- Replace the partition stored under `pk` (in place, keys unchanged). -/
def setP : PartitionList → PartitionKey → Partition → PartitionList
  | [], _, _ => []
  | e :: rest, pk, p => if e.1 = pk then (pk, p) :: rest else e :: setP rest pk p

/-- Remove the (first) entry stored under `pk`. -/
def eraseP : PartitionList → PartitionKey → PartitionList
  | [], _ => []
  | e :: rest, pk => if e.1 = pk then rest else e :: eraseP rest pk

/-- The stored partition keys. -/
def domP (ps : PartitionList) : List PartitionKey := ps.map Prod.fst

/-- The partition key carried by a child reference, if any. -/
def partOf : ChildKey → Option PartitionKey
  | ChildKey.partitionKey c => some c
  | ChildKey.primaryKey _ => none

/-- The primary key carried by a child reference, if any. -/
def primOf : ChildKey → Option PrimaryKey
  | ChildKey.partitionKey _ => none
  | ChildKey.primaryKey k => some k

/-- The partition-reference children of a partition. -/
def Partition.partChildren (p : Partition) : List PartitionKey :=
  p.childKeys.filterMap partOf

/-- The primary-key children of a partition. -/
def Partition.primChildren (p : Partition) : List PrimaryKey :=
  p.childKeys.filterMap primOf

/-- Modelled from the spec: the whole index state — size bounds, the
partition store, the full-vector store, the next fresh partition key, and
the pending-fixup queue (keyed by partition key). -/
structure TreeState where
  minPartitionSize : ℕ
  maxPartitionSize : ℕ
  partitions : PartitionList
  vectors : VectorList
  nextKey : PartitionKey
  fixupQueue : List PartitionKey

def getP (st : TreeState) (pk : PartitionKey) : Option Partition :=
  lookupP st.partitions pk

def getVec (st : TreeState) (k : PrimaryKey) : Option Vec :=
  lookupV st.vectors k

/-- `GetFullVectors` resolution of one child reference: a partition child
resolves to that partition's full centroid vector, a primary-key child to
the stored full vector; `none` models a nil `.Vector` after the fetch. -/
def getFullVector (st : TreeState) : ChildKey → Option Vec
  | ChildKey.partitionKey pk => (getP st pk).map Partition.centroid
  | ChildKey.primaryKey k => getVec st k

/-- The level of the root partition (0 when the root is missing). -/
def rootLevel (st : TreeState) : ℕ :=
  ((getP st RootKey).map Partition.level).getD 0

/-- Well-formedness of the subtree rooted at `pk`, at the given level:
the partition exists with that level; a leaf (level 0) has only
primary-key children, each with a stored full vector; an internal
partition has a nonempty list of partition children, one level lower and
recursively well formed. -/
def wfAt (ps : PartitionList) (vs : VectorList) : ℕ → PartitionKey → Prop
  | 0, pk => ∃ p, lookupP ps pk = some p ∧ p.level = 0 ∧
      ∀ ck ∈ p.childKeys, ∃ k, ck = ChildKey.primaryKey k ∧ (lookupV vs k).isSome = true
  | l+1, pk => ∃ p, lookupP ps pk = some p ∧ p.level = l + 1 ∧ p.childKeys ≠ [] ∧
      ∀ ck ∈ p.childKeys, ∃ c, ck = ChildKey.partitionKey c ∧ wfAt ps vs l c

/-- All partition keys in the subtree rooted at `pk` (level as fuel). -/
def subtreePKeys (ps : PartitionList) : ℕ → PartitionKey → List PartitionKey
  | 0, pk => [pk]
  | l+1, pk => pk :: (((lookupP ps pk).map Partition.partChildren).getD []).flatMap
      (subtreePKeys ps l)

/-- All primary keys stored in the leaves of the subtree rooted at `pk`. -/
def subtreeLeafKeys (ps : PartitionList) : ℕ → PartitionKey → List PrimaryKey
  | 0, pk => ((lookupP ps pk).map Partition.primChildren).getD []
  | l+1, pk => (((lookupP ps pk).map Partition.partChildren).getD []).flatMap
      (subtreeLeafKeys ps l)

/-- The primary keys stored in the leaves of the whole tree. -/
def leafKeys (st : TreeState) : List PrimaryKey :=
  subtreeLeafKeys st.partitions (rootLevel st) RootKey

/-- The structural invariants of the index state: a well-formed layered
tree under the root, no partition reachable twice (so in particular every
primary key lives in exactly one leaf's child list), all reachable keys
fresh-bounded, the store holding exactly the reachable partitions, and a
positive `MaxPartitionSize`. -/
structure Inv (st : TreeState) : Prop where
  wf : wfAt st.partitions st.vectors (rootLevel st) RootKey
  nodupTree : (subtreePKeys st.partitions (rootLevel st) RootKey).Nodup
  freshTree : ∀ q ∈ subtreePKeys st.partitions (rootLevel st) RootKey, q < st.nextKey
  dom : ∀ q, (lookupP st.partitions q).isSome = true ↔
      q ∈ subtreePKeys st.partitions (rootLevel st) RootKey
  nodupStore : (domP st.partitions).Nodup
  maxPos : 0 < st.maxPartitionSize

/-- Modelled from the spec: index construction creates the permanent root
as an empty leaf partition. -/
def initState (dims minSize maxSize : ℕ) : TreeState :=
  { minPartitionSize := minSize
    maxPartitionSize := maxSize
    partitions := [(RootKey, { level := 0, centroid := List.replicate dims 0, childKeys := [] })]
    vectors := []
    nextKey := RootKey + 1
    fixupQueue := [] }

/-- Fold step keeping the candidate with the smaller (distance, key). -/
def pickBest (acc : Option (PartitionKey × ℚ)) (cd : PartitionKey × ℚ) :
    Option (PartitionKey × ℚ) :=
  match acc with
  | none => some cd
  | some best =>
    if cd.2 < best.2 ∨ (cd.2 = best.2 ∧ cd.1 < best.1) then some cd else some best

/-- The resolvable child partitions with their (estimated, here exact)
squared centroid distances to the query. -/
def childCandidates (st : TreeState) (qv : Vec) (cks : List ChildKey) :
    List (PartitionKey × ℚ) :=
  cks.filterMap fun ck => match ck with
    | ChildKey.partitionKey c => (getP st c).map fun p => (c, l2sq p.centroid qv)
    | ChildKey.primaryKey _ => none

/-- Modelled from the spec: during descent the child whose centroid
minimizes the (estimated, here exact) squared distance to the query is
chosen, ties broken by lowest child key. -/
def chooseChild (st : TreeState) (cks : List ChildKey) (qv : Vec) : Option PartitionKey :=
  ((childCandidates st qv cks).foldl pickBest none).map Prod.fst

/-- Modelled from the spec: top-down descent from a partition at the given
level down to a leaf partition. -/
def findLeaf (st : TreeState) (qv : Vec) : ℕ → PartitionKey → Option PartitionKey
  | 0, pk => some pk
  | l+1, pk => match getP st pk with
    | none => none
    | some p => match chooseChild st p.childKeys qv with
      | none => none
      | some c => findLeaf st qv l c

/-- Fixup enqueue with deduplication: a partition already pending is not
re-enqueued. -/
def enqueueFixup (st : TreeState) (pk : PartitionKey) : TreeState :=
  if pk ∈ st.fixupQueue then st else { st with fixupQueue := st.fixupQueue ++ [pk] }

/-- The leaf partition after appending a freshly inserted primary key. -/
def insertedLeaf (leaf : Partition) (k : PrimaryKey) : Partition :=
  { leaf with childKeys := leaf.childKeys ++ [ChildKey.primaryKey k] }

/-- The state after writing the appended leaf and the full vector. -/
def mkInsertState (st : TreeState) (leafPk : PartitionKey) (leaf : Partition)
    (k : PrimaryKey) (v : Vec) : TreeState :=
  { st with
    partitions := setP st.partitions leafPk (insertedLeaf leaf k)
    vectors := (k, v) :: st.vectors }

/-- The insert result: the updated state, with the leaf enqueued for a
split fixup when it now exceeds `MaxPartitionSize`. -/
def mkInsertResult (st : TreeState) (leafPk : PartitionKey) (leaf : Partition)
    (k : PrimaryKey) (v : Vec) : TreeState :=
  if st.maxPartitionSize < (insertedLeaf leaf k).childKeys.length
  then enqueueFixup (mkInsertState st leafPk leaf k v) leafPk
  else mkInsertState st leafPk leaf k v

/-- Modelled from the spec: `Insert` descends from the root to a leaf,
appends the primary key there (storing the full vector as well), and
enqueues the leaf for a split fixup if it now exceeds
`MaxPartitionSize`. -/
def insertVec (st : TreeState) (v : Vec) (k : PrimaryKey) : Option TreeState :=
  match findLeaf st v (rootLevel st) RootKey with
  | none => none
  | some leafPk => match getP st leafPk with
    | none => none
    | some leaf => some (mkInsertResult st leafPk leaf k v)

def vecAdd (a b : Vec) : Vec := List.zipWith (· + ·) a b

/-- Centroid of a newly created partition: the mean of the resolved full
vectors of its children.  (The spec leaves the re-clustering method open;
only the grouping of children matters for the verified invariants.) -/
def centroidOf (st : TreeState) (cks : List ChildKey) : Vec :=
  let vs := cks.filterMap (getFullVector st)
  match vs with
  | [] => []
  | v0 :: _ => (vs.foldl vecAdd (List.replicate v0.length 0)).map (fun x => x / vs.length)

/-- Modelled from the spec: a split partitions the target's children into
two groups; the model splits the ordered child list in half. -/
def splitChildren (cks : List ChildKey) : List ChildKey × List ChildKey :=
  (cks.take (cks.length / 2), cks.drop (cks.length / 2))

/-- The new left partition of a split: the first half of the children. -/
def splitLeft (st : TreeState) (target : Partition) : Partition :=
  { level := target.level
    centroid := centroidOf st (splitChildren target.childKeys).1
    childKeys := (splitChildren target.childKeys).1 }

/-- The new right partition of a split: the second half of the children. -/
def splitRight (st : TreeState) (target : Partition) : Partition :=
  { level := target.level
    centroid := centroidOf st (splitChildren target.childKeys).2
    childKeys := (splitChildren target.childKeys).2 }

/-- Substitution of the split partition's reference by the two new ones in
a parent's child list. -/
def substChild (pk nL nR : PartitionKey) (ck : ChildKey) : List ChildKey :=
  if ck = ChildKey.partitionKey pk
  then [ChildKey.partitionKey nL, ChildKey.partitionKey nR] else [ck]

/-- The parent partition after the split rewrite of its child list. -/
def splitParent (pk nL nR : PartitionKey) (parent : Partition) : Partition :=
  { parent with childKeys := parent.childKeys.flatMap (substChild pk nL nR) }

/-- The root partition after a root split: one level higher, pointing at
the two new partitions. -/
def newRoot (nL nR : PartitionKey) (root : Partition) : Partition :=
  { level := root.level + 1
    centroid := root.centroid
    childKeys := [ChildKey.partitionKey nL, ChildKey.partitionKey nR] }

/-- Modelled from the spec: splitting the root moves its children into two
new partitions and the root becomes their parent, one level higher. -/
def applyRootSplit (st : TreeState) (root : Partition) : TreeState :=
  { st with
    partitions := (st.nextKey, splitLeft st root) :: (st.nextKey + 1, splitRight st root)
      :: setP st.partitions RootKey (newRoot st.nextKey (st.nextKey + 1) root)
    nextKey := st.nextKey + 2 }

/-- The new left partition of a split, its centroid passed explicitly. -/
def leftPart (target : Partition) (cL : Vec) : Partition :=
  { level := target.level
    centroid := cL
    childKeys := (splitChildren target.childKeys).1 }

/-- The new right partition of a split, its centroid passed explicitly. -/
def rightPart (target : Partition) (cR : Vec) : Partition :=
  { level := target.level
    centroid := cR
    childKeys := (splitChildren target.childKeys).2 }

/-- The partition store after a non-root split, with the two new
partitions' centroids passed explicitly. -/
def splitStore (ps : PartitionList) (parentPk pk nL nR : PartitionKey)
    (parent target : Partition) (cL cR : Vec) : PartitionList :=
  (nL, leftPart target cL) :: (nR, rightPart target cR) ::
    setP (eraseP ps pk) parentPk (splitParent pk nL nR parent)

/-- The state after a non-root split, before the parent's own size check. -/
def mkSplitState (st : TreeState) (parentPk pk : PartitionKey)
    (parent target : Partition) : TreeState :=
  { st with
    partitions := splitStore st.partitions parentPk pk st.nextKey (st.nextKey + 1)
      parent target (centroidOf st (splitChildren target.childKeys).1)
      (centroidOf st (splitChildren target.childKeys).2)
    nextKey := st.nextKey + 2 }

/-- Modelled from the spec: splitting a non-root partition replaces it in
its parent's child list by two new partitions holding the two halves of
its children; the old partition is removed; if the parent now exceeds the
maximum size it is enqueued in turn. -/
def applySplit (st : TreeState) (parentPk pk : PartitionKey)
    (parent target : Partition) : TreeState :=
  if st.maxPartitionSize
      < (splitParent pk st.nextKey (st.nextKey + 1) parent).childKeys.length
  then enqueueFixup (mkSplitState st parentPk pk parent target) parentPk
  else mkSplitState st parentPk pk parent target

/-- Find the (under the tree invariants, unique) stored partition whose
child list references `pk`. -/
def findParentIn : PartitionList → PartitionKey → Option PartitionKey
  | [], _ => none
  | e :: rest, pk =>
    if ChildKey.partitionKey pk ∈ e.2.childKeys then some e.1 else findParentIn rest pk

def findParent (st : TreeState) (pk : PartitionKey) : Option PartitionKey :=
  findParentIn st.partitions pk

/-- Modelled from the spec: pop one entry off the fixup queue and process
it — split it if it is (still) oversized, raising a new root level when
the oversized partition is the root; a fixup whose target no longer
matches the expected shape is dropped softly.  Merge restructuring is
outside the verified claims and is likewise a soft skip. -/
def processOneFixup (st : TreeState) : TreeState :=
  match st.fixupQueue with
  | [] => st
  | pk :: rest =>
    let st0 : TreeState := { st with fixupQueue := rest }
    if pk = RootKey then
      match getP st0 RootKey with
      | none => st0
      | some root =>
        if st0.maxPartitionSize < root.childKeys.length then applyRootSplit st0 root else st0
    else
      match findParent st0 pk, getP st0 pk with
      | some parentPk, some target =>
        match getP st0 parentPk with
        | none => st0
        | some parent =>
          if st0.maxPartitionSize < target.childKeys.length
          then applySplit st0 parentPk pk parent target
          else st0
      | _, _ => st0

/-- One step of a build trace: an insert, or one synchronous
fixup-processing step (as `ProcessFixups` performs repeatedly). -/
inductive IndexOp where
  | insertOp (k : PrimaryKey) (v : Vec)
  | fixupOp

def execOp (st : TreeState) : IndexOp → Option TreeState
  | IndexOp.insertOp k v => insertVec st v k
  | IndexOp.fixupOp => some (processOneFixup st)

def runOps (st : TreeState) : List IndexOp → Option TreeState
  | [] => some st
  | op :: rest => match execOp st op with
    | none => none
    | some st2 => runOps st2 rest

/-- The primary keys inserted along a trace. -/
def insertedKeys (ops : List IndexOp) : List PrimaryKey :=
  ops.filterMap fun op => match op with
    | IndexOp.insertOp k _ => some k
    | IndexOp.fixupOp => none

/-- One level of `validateIndex`'s loop (from the source): fetch every
partition of the current level and concatenate their child keys
(`GetPartition` failure is a panic, modelled as `none`). -/
def levelChildKeys (st : TreeState) : List PartitionKey → Option (List ChildKey)
  | [] => some []
  | pk :: pks => match getP st pk, levelChildKeys st pks with
    | some p, some cks => some (p.childKeys ++ cks)
    | _, _ => none

/-- The level-by-level traversal of `validateIndex` / `ValidateTree` from
the source: starting at the root, repeatedly gather the child keys of the
current level, require every one of them to resolve to a full vector
(`require.NotNil(refs[i].Vector)`; failure modelled as `none`), classify
the level by its first child key, and stop at the leaf level, returning
its child keys. -/
def traverseLoop (st : TreeState) : ℕ → List PartitionKey → Option (List ChildKey)
  | 0, _ => none
  | fuel+1, pks =>
    match levelChildKeys st pks with
    | none => none
    | some cks =>
      if cks.isEmpty then some []
      else if cks.all (fun ck => (getFullVector st ck).isSome) then
        match cks.head? with
        | some (ChildKey.primaryKey _) => some cks
        | _ =>
          traverseLoop st fuel (cks.filterMap fun ck => match ck with
            | ChildKey.partitionKey c => some c
            | ChildKey.primaryKey _ => none)
      else none

/-- The `validateIndex` traversal started at the root with enough fuel for
every level. -/
def traverseFromRoot (st : TreeState) : Option (List ChildKey) :=
  traverseLoop st (rootLevel st + 2) [RootKey]

/-- The partition keys at depth `d` below the root (depth 0 = root). -/
def depthKeys (st : TreeState) : ℕ → List PartitionKey
  | 0 => [RootKey]
  | d+1 => (depthKeys st d).flatMap fun pk =>
      ((getP st pk).map Partition.partChildren).getD []

/-- All child keys appearing at depth `d` — the references `validateIndex`
passes to `GetFullVectors` when visiting that level. -/
def depthChildKeys (st : TreeState) (d : ℕ) : List ChildKey :=
  (depthKeys st d).flatMap fun pk => ((getP st pk).map Partition.childKeys).getD []

/-! ### Store lemmas -/

theorem lookupP_setP_ne :
    ∀ (ps : PartitionList) (pk : PartitionKey) (p : Partition) {q : PartitionKey},
      q ≠ pk → lookupP (setP ps pk p) q = lookupP ps q
  | [], _, _, _, _ => rfl
  | e :: rest, pk, p, q, h => by
    simp only [setP]
    by_cases he : e.1 = pk
    · rw [if_pos he]
      simp only [lookupP]
      rw [if_neg (fun hc : pk = q => h hc.symm), if_neg (fun hc : e.1 = q => h (he ▸ hc).symm)]
    · rw [if_neg he]
      simp only [lookupP]
      by_cases heq : e.1 = q
      · rw [if_pos heq, if_pos heq]
      · rw [if_neg heq, if_neg heq, lookupP_setP_ne rest pk p h]

theorem lookupP_setP_self :
    ∀ (ps : PartitionList) (pk : PartitionKey) (p : Partition),
      (lookupP ps pk).isSome = true → lookupP (setP ps pk p) pk = some p
  | [], _, _, h => by simp [lookupP] at h
  | e :: rest, pk, p, h => by
    simp only [setP]
    by_cases he : e.1 = pk
    · rw [if_pos he]
      simp [lookupP]
    · rw [if_neg he]
      simp only [lookupP, if_neg he] at h ⊢
      exact lookupP_setP_self rest pk p h

theorem lookupP_eraseP_ne :
    ∀ (ps : PartitionList) (pk : PartitionKey) {q : PartitionKey},
      q ≠ pk → lookupP (eraseP ps pk) q = lookupP ps q
  | [], _, _, _ => rfl
  | e :: rest, pk, q, h => by
    simp only [eraseP]
    by_cases he : e.1 = pk
    · rw [if_pos he]
      simp only [lookupP]
      rw [if_neg (fun hc : e.1 = q => h (he ▸ hc).symm)]
    · rw [if_neg he]
      simp only [lookupP]
      by_cases heq : e.1 = q
      · rw [if_pos heq, if_pos heq]
      · rw [if_neg heq, if_neg heq, lookupP_eraseP_ne rest pk h]

theorem mem_domP_iff :
    ∀ (ps : PartitionList) (q : PartitionKey),
      q ∈ domP ps ↔ (lookupP ps q).isSome = true
  | [], q => by simp [domP, lookupP]
  | e :: rest, q => by
    simp only [domP, List.map_cons, List.mem_cons, lookupP]
    by_cases he : e.1 = q
    · simp [he]
    · simp only [if_neg he]
      constructor
      · intro hc
        rcases hc with hc | hc
        · exact absurd hc.symm he
        · exact (mem_domP_iff rest q).mp hc
      · intro hc
        exact Or.inr ((mem_domP_iff rest q).mpr hc)

theorem lookupP_eraseP_self :
    ∀ (ps : PartitionList) (pk : PartitionKey), (domP ps).Nodup →
      lookupP (eraseP ps pk) pk = none
  | [], _, _ => rfl
  | e :: rest, pk, h => by
    simp only [domP, List.map_cons, List.nodup_cons] at h
    simp only [eraseP]
    by_cases he : e.1 = pk
    · rw [if_pos he]
      cases hc : lookupP rest pk
      · rfl
      · have : pk ∈ domP rest := (mem_domP_iff rest pk).mpr (by rw [hc]; rfl)
        exact absurd (he ▸ this) h.1
    · rw [if_neg he]
      simp only [lookupP, if_neg he]
      exact lookupP_eraseP_self rest pk h.2

theorem domP_setP :
    ∀ (ps : PartitionList) (pk : PartitionKey) (p : Partition),
      domP (setP ps pk p) = domP ps
  | [], _, _ => rfl
  | e :: rest, pk, p => by
    simp only [setP]
    by_cases he : e.1 = pk
    · rw [if_pos he]
      simp [domP, he]
    · rw [if_neg he]
      simp only [domP, List.map_cons]
      exact congrArg (fun xs => e.1 :: xs) (domP_setP rest pk p)

theorem eraseP_sublist (ps : PartitionList) (pk : PartitionKey) :
    (eraseP ps pk).Sublist ps := by
  induction ps with
  | nil => exact List.Sublist.refl _
  | cons e rest ih =>
    simp only [eraseP]
    by_cases he : e.1 = pk
    · rw [if_pos he]
      exact List.sublist_cons_self e rest
    · rw [if_neg he]
      exact ih.cons₂ e

theorem domP_eraseP_nodup (ps : PartitionList) (pk : PartitionKey)
    (h : (domP ps).Nodup) : (domP (eraseP ps pk)).Nodup :=
  h.sublist ((eraseP_sublist ps pk).map Prod.fst)

theorem lookupV_cons_self (vs : VectorList) (k : PrimaryKey) (v : Vec) :
    lookupV ((k, v) :: vs) k = some v := by
  simp [lookupV]

theorem lookupV_cons_isSome (vs : VectorList) (k : PrimaryKey) (v : Vec)
    {q : PrimaryKey} (h : (lookupV vs q).isSome = true) :
    (lookupV ((k, v) :: vs) q).isSome = true := by
  simp only [lookupV]
  by_cases he : k = q
  · rw [if_pos he]; rfl
  · rw [if_neg he]; exact h

/-! ### Subtree membership helpers -/

theorem mem_partChildren {p : Partition} {c : PartitionKey} :
    c ∈ p.partChildren ↔ ChildKey.partitionKey c ∈ p.childKeys := by
  unfold Partition.partChildren
  rw [List.mem_filterMap]
  constructor
  · rintro ⟨ck, hmem, hck⟩
    cases ck with
    | partitionKey c' =>
      simp only [partOf, Option.some.injEq] at hck
      rw [← hck]
      exact hmem
    | primaryKey k => simp [partOf] at hck
  · intro hmem
    exact ⟨ChildKey.partitionKey c, hmem, rfl⟩

theorem self_mem_subtreePKeys (ps : PartitionList) :
    ∀ (l : ℕ) (pk : PartitionKey), pk ∈ subtreePKeys ps l pk
  | 0, pk => by simp [subtreePKeys]
  | l+1, pk => by simp [subtreePKeys]

theorem subtreePKeys_ne_nil (ps : PartitionList) (l : ℕ) (pk : PartitionKey) :
    subtreePKeys ps l pk ≠ [] := by
  intro hc
  have := self_mem_subtreePKeys ps l pk
  rw [hc] at this
  exact absurd this (List.not_mem_nil pk)

theorem child_subtree_subset (ps : PartitionList) {l : ℕ} {pk c : PartitionKey}
    {p : Partition} (hp : lookupP ps pk = some p) (hc : c ∈ p.partChildren) :
    subtreePKeys ps l c ⊆ subtreePKeys ps (l+1) pk := by
  intro q hq
  simp only [subtreePKeys, hp, Option.map_some, Option.getD_some, List.mem_cons]
  exact Or.inr (List.mem_flatMap.mpr ⟨c, hc, hq⟩)

theorem flatMap_congr {α β : Type} {l : List α} {f g : α → List β}
    (h : ∀ a ∈ l, f a = g a) : l.flatMap f = l.flatMap g := by
  induction l with
  | nil => rfl
  | cons a tl ih =>
    simp only [List.flatMap_cons]
    rw [h a (List.mem_cons_self a tl), ih (fun b hb => h b (List.mem_cons_of_mem a hb))]

/-! ### The frame (congruence) lemma: lookups untouched on a subtree leave
its well-formedness and key sets unchanged. -/

theorem wf_frame {ps ps' : PartitionList} {vs vs' : VectorList}
    (hv : ∀ k, (lookupV vs k).isSome = true → (lookupV vs' k).isSome = true) :
    ∀ (l : ℕ) (pk : PartitionKey), wfAt ps vs l pk →
      (∀ q ∈ subtreePKeys ps l pk, lookupP ps' q = lookupP ps q) →
      wfAt ps' vs' l pk ∧ subtreePKeys ps' l pk = subtreePKeys ps l pk ∧
        subtreeLeafKeys ps' l pk = subtreeLeafKeys ps l pk
  | 0, pk, hwf, hq => by
    obtain ⟨p, hp, hlv, hch⟩ := hwf
    have hpk : lookupP ps' pk = lookupP ps pk := hq pk (self_mem_subtreePKeys ps 0 pk)
    refine ⟨⟨p, by rw [hpk, hp], hlv, ?_⟩, by simp [subtreePKeys], ?_⟩
    · intro ck hck
      obtain ⟨k, hk, hkv⟩ := hch ck hck
      exact ⟨k, hk, hv k hkv⟩
    · simp only [subtreeLeafKeys]
      rw [hpk]
  | l+1, pk, hwf, hq => by
    obtain ⟨p, hp, hlv, hne, hch⟩ := hwf
    have hpk : lookupP ps' pk = lookupP ps pk :=
      hq pk (self_mem_subtreePKeys ps (l+1) pk)
    have hchwf : ∀ c ∈ p.partChildren,
        wfAt ps' vs' l c ∧ subtreePKeys ps' l c = subtreePKeys ps l c ∧
          subtreeLeafKeys ps' l c = subtreeLeafKeys ps l c := by
      intro c hc
      obtain ⟨c', hc', hwfc⟩ := hch _ (mem_partChildren.mp hc)
      have hcc : c = c' := by
        injection hc' with h1
      subst hcc
      refine wf_frame hv l c hwfc ?_
      intro q hqmem
      exact hq q (child_subtree_subset ps hp hc hqmem)
    refine ⟨⟨p, by rw [hpk, hp], hlv, hne, ?_⟩, ?_, ?_⟩
    · intro ck hck
      obtain ⟨c, hc, hwfc⟩ := hch ck hck
      exact ⟨c, hc, (hchwf c (mem_partChildren.mpr (hc ▸ hck))).1⟩
    · simp only [subtreePKeys]
      rw [hpk, hp]
      simp only [Option.map_some', Option.getD_some]
      congr 1
      exact flatMap_congr (fun c hc => (hchwf c hc).2.1)
    · simp only [subtreeLeafKeys]
      rw [hpk, hp]
      simp only [Option.map_some', Option.getD_some]
      exact flatMap_congr (fun c hc => (hchwf c hc).2.2)

/-! ### Descent lemmas -/

theorem wfAt_lookup {ps : PartitionList} {vs : VectorList} :
    ∀ {l : ℕ} {pk : PartitionKey}, wfAt ps vs l pk →
      ∃ p, lookupP ps pk = some p ∧ p.level = l
  | 0, _, h => by
    obtain ⟨p, hp, hl, _⟩ := h
    exact ⟨p, hp, hl⟩
  | _+1, _, h => by
    obtain ⟨p, hp, hl, _, _⟩ := h
    exact ⟨p, hp, hl⟩

theorem pickBest_isSome :
    ∀ (l : List (PartitionKey × ℚ)) (acc : Option (PartitionKey × ℚ)),
      (l ≠ [] ∨ acc.isSome = true) → (l.foldl pickBest acc).isSome = true
  | [], acc, h => by
    rcases h with h | h
    · exact absurd rfl h
    · simpa using h
  | cd :: tl, acc, _ => by
    have hsome : (pickBest acc cd).isSome = true := by
      cases acc with
      | none => rfl
      | some best =>
        simp only [pickBest]
        by_cases hc : cd.2 < best.2 ∨ (cd.2 = best.2 ∧ cd.1 < best.1)
        · rw [if_pos hc]; rfl
        · rw [if_neg hc]; rfl
    simp only [List.foldl_cons]
    exact pickBest_isSome tl (pickBest acc cd) (Or.inr hsome)

theorem pickBest_mem :
    ∀ (l : List (PartitionKey × ℚ)) (acc : Option (PartitionKey × ℚ))
      (x : PartitionKey × ℚ), l.foldl pickBest acc = some x → x ∈ l ∨ acc = some x
  | [], _, _, h => Or.inr h
  | cd :: tl, acc, x, h => by
    simp only [List.foldl_cons] at h
    rcases pickBest_mem tl (pickBest acc cd) x h with hm | hacc
    · exact Or.inl (List.mem_cons_of_mem cd hm)
    · cases acc with
      | none =>
        have hcd : cd = x := by simpa [pickBest] using hacc
        exact Or.inl (hcd ▸ List.mem_cons_self cd tl)
      | some best =>
        simp only [pickBest] at hacc
        by_cases hc : cd.2 < best.2 ∨ (cd.2 = best.2 ∧ cd.1 < best.1)
        · rw [if_pos hc] at hacc
          have hcd : cd = x := by simpa using hacc
          exact Or.inl (hcd ▸ List.mem_cons_self cd tl)
        · rw [if_neg hc] at hacc
          exact Or.inr hacc

theorem chooseChild_spec (st : TreeState) (cks : List ChildKey) (qv : Vec)
    (hne : cks ≠ [])
    (hcand : ∀ ck ∈ cks, ∃ c q, ck = ChildKey.partitionKey c ∧ getP st c = some q) :
    ∃ c, chooseChild st cks qv = some c ∧ ChildKey.partitionKey c ∈ cks := by
  have hcne : childCandidates st qv cks ≠ [] := by
    obtain ⟨ck0, rest, rfl⟩ : ∃ ck0 rest, cks = ck0 :: rest := by
      cases cks with
      | nil => exact absurd rfl hne
      | cons a b => exact ⟨a, b, rfl⟩
    obtain ⟨c, q, hck, hq⟩ := hcand ck0 (List.mem_cons_self _ _)
    intro hcempty
    have : (c, l2sq q.centroid qv) ∈ childCandidates st qv (ck0 :: rest) := by
      unfold childCandidates
      refine List.mem_filterMap.mpr ⟨ck0, List.mem_cons_self _ _, ?_⟩
      rw [hck]
      simp [hq]
    rw [hcempty] at this
    exact absurd this (List.not_mem_nil _)
  have hsome := pickBest_isSome (childCandidates st qv cks) none (Or.inl hcne)
  obtain ⟨x, hx⟩ := Option.isSome_iff_exists.mp hsome
  have hxmem : x ∈ childCandidates st qv cks := by
    rcases pickBest_mem _ _ _ hx with hm | hacc
    · exact hm
    · exact absurd hacc (by simp)
  refine ⟨x.1, ?_, ?_⟩
  · unfold chooseChild
    rw [hx]
    rfl
  · obtain ⟨ck, hckmem, hck⟩ := List.mem_filterMap.mp hxmem
    cases ck with
    | partitionKey c =>
      simp only [Option.map_eq_some'] at hck
      obtain ⟨p, _, hp2⟩ := hck
      have : x.1 = c := by rw [← hp2]
      rw [this]
      exact hckmem
    | primaryKey k => simp at hck

theorem findLeaf_spec (st : TreeState) (qv : Vec) :
    ∀ (l : ℕ) (pk : PartitionKey), wfAt st.partitions st.vectors l pk →
      ∃ leafPk, findLeaf st qv l pk = some leafPk ∧
        leafPk ∈ subtreePKeys st.partitions l pk ∧
        wfAt st.partitions st.vectors 0 leafPk
  | 0, pk, hwf => ⟨pk, rfl, self_mem_subtreePKeys _ 0 pk, hwf⟩
  | l+1, pk, hwf => by
    obtain ⟨p, hp, hlv, hne, hch⟩ := hwf
    have hcand : ∀ ck ∈ p.childKeys,
        ∃ c q, ck = ChildKey.partitionKey c ∧ getP st c = some q := by
      intro ck hck
      obtain ⟨c, hc, hwfc⟩ := hch ck hck
      obtain ⟨q, hq, _⟩ := wfAt_lookup hwfc
      exact ⟨c, q, hc, hq⟩
    obtain ⟨c, hcc, hcmem⟩ := chooseChild_spec st p.childKeys qv hne hcand
    obtain ⟨c', hc', hwfc⟩ := hch _ hcmem
    have hcc' : c = c' := by injection hc' with h1
    subst hcc'
    obtain ⟨leafPk, hfl, hmem, hwf0⟩ := findLeaf_spec st qv l c hwfc
    refine ⟨leafPk, ?_, ?_, hwf0⟩
    · have hpg : getP st pk = some p := hp
      simp only [findLeaf, hpg, hcc]
      exact hfl
    · exact child_subtree_subset st.partitions hp (mem_partChildren.mpr hcmem) hmem

/-! ### Effect of an insert on the tree -/

theorem insert_update (ps : PartitionList) (vs : VectorList) (leafPk : PartitionKey)
    (leaf : Partition) (k : PrimaryKey) (v : Vec)
    (hleaf : lookupP ps leafPk = some leaf) (hlv0 : leaf.level = 0) :
    ∀ (l : ℕ) (pk : PartitionKey), wfAt ps vs l pk → (subtreePKeys ps l pk).Nodup →
      leafPk ∈ subtreePKeys ps l pk →
      wfAt (setP ps leafPk (insertedLeaf leaf k)) ((k, v) :: vs) l pk ∧
      subtreePKeys (setP ps leafPk (insertedLeaf leaf k)) l pk = subtreePKeys ps l pk ∧
      (subtreeLeafKeys (setP ps leafPk (insertedLeaf leaf k)) l pk).Perm
        (k :: subtreeLeafKeys ps l pk)
  | 0, pk, hwf, _, hmem => by
    have hpkeq : leafPk = pk := by
      simpa [subtreePKeys] using hmem
    subst hpkeq
    obtain ⟨p, hp, _, hch⟩ := hwf
    have hpe : p = leaf := Option.some.inj (hp.symm.trans hleaf)
    have hset : lookupP (setP ps leafPk (insertedLeaf leaf k)) leafPk
        = some (insertedLeaf leaf k) :=
      lookupP_setP_self ps leafPk _ (by rw [hleaf]; rfl)
    refine ⟨⟨insertedLeaf leaf k, hset, hlv0, ?_⟩, by simp [subtreePKeys], ?_⟩
    · intro ck hck
      simp only [insertedLeaf, List.mem_append, List.mem_singleton] at hck
      rcases hck with hck | hck
      · obtain ⟨k', hk', hkv⟩ := hch ck (hpe ▸ hck)
        exact ⟨k', hk', lookupV_cons_isSome vs k v hkv⟩
      · subst hck
        exact ⟨k, rfl, by rw [lookupV_cons_self]; rfl⟩
    · simp only [subtreeLeafKeys, hset, hp, Option.map_some', Option.getD_some]
      have happ : (insertedLeaf leaf k).primChildren = leaf.primChildren ++ [k] := by
        unfold insertedLeaf Partition.primChildren
        rw [List.filterMap_append]
        simp [primOf]
      rw [happ, hpe]
      exact List.perm_append_singleton k leaf.primChildren
  | l+1, pk, hwf, hnd, hmem => by
    obtain ⟨p, hp, hlv, hne, hch⟩ := hwf
    have hpkne : pk ≠ leafPk := by
      intro hc
      rw [hc, hleaf] at hp
      have hpe : leaf = p := Option.some.inj hp
      rw [← hpe, hlv0] at hlv
      exact Nat.succ_ne_zero l hlv.symm
    have hwfchild : ∀ c ∈ p.partChildren, wfAt ps vs l c := by
      intro c hc
      obtain ⟨c', hc', hwfc⟩ := hch _ (mem_partChildren.mp hc)
      have hcc : c = c' := by injection hc' with h1
      rw [hcc]
      exact hwfc
    have hmem' : leafPk ∈ p.partChildren.flatMap (subtreePKeys ps l) := by
      simp only [subtreePKeys, hp, Option.map_some', Option.getD_some,
        List.mem_cons] at hmem
      rcases hmem with hmem | hmem
      · exact absurd hmem.symm hpkne
      · exact hmem
    obtain ⟨cstar, hcstar, hleafin⟩ := List.mem_flatMap.mp hmem'
    obtain ⟨L, R, hLR⟩ := List.append_of_mem hcstar
    have hndtail : (p.partChildren.flatMap (subtreePKeys ps l)).Nodup := by
      simp only [subtreePKeys, hp, Option.map_some', Option.getD_some] at hnd
      exact (List.nodup_cons.mp hnd).2
    rw [hLR, List.flatMap_append, List.flatMap_cons] at hndtail
    have hsplit := List.nodup_append.mp hndtail
    have hsplit2 := List.nodup_append.mp hsplit.2.1
    have hSC : (subtreePKeys ps l cstar).Nodup := hsplit2.1
    have hdisjFL := hsplit.2.2
    have hdisjSCFR := hsplit2.2.2
    have hnotFL : leafPk ∉ L.flatMap (subtreePKeys ps l) := by
      intro hc
      exact hdisjFL hc (List.mem_append_left _ hleafin)
    have hnotFR : leafPk ∉ R.flatMap (subtreePKeys ps l) := by
      intro hc
      exact hdisjSCFR hleafin hc
    have hframe : ∀ d ∈ L ++ R, wfAt ps vs l d →
        wfAt (setP ps leafPk (insertedLeaf leaf k)) ((k, v) :: vs) l d ∧
        subtreePKeys (setP ps leafPk (insertedLeaf leaf k)) l d = subtreePKeys ps l d ∧
        subtreeLeafKeys (setP ps leafPk (insertedLeaf leaf k)) l d
          = subtreeLeafKeys ps l d := by
      intro d hd hwfd
      refine wf_frame (fun k' h => lookupV_cons_isSome vs k v h) l d hwfd ?_
      intro q hq
      have hqne : q ≠ leafPk := by
        intro hqeq
        subst hqeq
        rcases List.mem_append.mp hd with hdL | hdR
        · exact hnotFL (List.mem_flatMap.mpr ⟨d, hdL, hq⟩)
        · exact hnotFR (List.mem_flatMap.mpr ⟨d, hdR, hq⟩)
      exact lookupP_setP_ne ps leafPk _ hqne
    have hwfstar : wfAt ps vs l cstar := hwfchild cstar hcstar
    obtain ⟨hwfS, hkeysS, hleafS⟩ :=
      insert_update ps vs leafPk leaf k v hleaf hlv0 l cstar hwfstar hSC hleafin
    have hpk' : lookupP (setP ps leafPk (insertedLeaf leaf k)) pk = some p := by
      rw [lookupP_setP_ne ps leafPk _ hpkne, hp]
    have hkid : ∀ c ∈ p.partChildren,
        wfAt (setP ps leafPk (insertedLeaf leaf k)) ((k, v) :: vs) l c ∧
        subtreePKeys (setP ps leafPk (insertedLeaf leaf k)) l c
          = subtreePKeys ps l c := by
      intro c hc
      by_cases hcs : c = cstar
      · subst hcs
        exact ⟨hwfS, hkeysS⟩
      · have hcLR : c ∈ L ++ R := by
          have hc2 := hc
          rw [hLR] at hc2
          rcases List.mem_append.mp hc2 with h1 | h1
          · exact List.mem_append_left _ h1
          · rcases List.mem_cons.mp h1 with h2 | h2
            · exact absurd h2 hcs
            · exact List.mem_append_right _ h2
        obtain ⟨w1, w2, _⟩ := hframe c hcLR (hwfchild c hc)
        exact ⟨w1, w2⟩
    refine ⟨⟨p, hpk', hlv, hne, ?_⟩, ?_, ?_⟩
    · intro ck hck
      obtain ⟨c, hc, _⟩ := hch ck hck
      exact ⟨c, hc, (hkid c (mem_partChildren.mpr (hc ▸ hck))).1⟩
    · simp only [subtreePKeys, hpk', hp, Option.map_some', Option.getD_some]
      congr 1
      exact flatMap_congr (fun c hc => (hkid c hc).2)
    · simp only [subtreeLeafKeys, hpk', hp, Option.map_some', Option.getD_some]
      rw [hLR, List.flatMap_append, List.flatMap_cons,
        List.flatMap_append, List.flatMap_cons]
      have hFLeq : L.flatMap (subtreeLeafKeys (setP ps leafPk (insertedLeaf leaf k)) l)
          = L.flatMap (subtreeLeafKeys ps l) := by
        apply flatMap_congr
        intro d hd
        exact (hframe d (List.mem_append_left R hd)
          (hwfchild d (by rw [hLR]; exact List.mem_append_left _ hd))).2.2
      have hFReq : R.flatMap (subtreeLeafKeys (setP ps leafPk (insertedLeaf leaf k)) l)
          = R.flatMap (subtreeLeafKeys ps l) := by
        apply flatMap_congr
        intro d hd
        exact (hframe d (List.mem_append_right L hd)
          (hwfchild d (by
            rw [hLR]
            exact List.mem_append_right _ (List.mem_cons_of_mem _ hd)))).2.2
      rw [hFLeq, hFReq]
      refine (List.Perm.append_left _ (List.Perm.append_right _ hleafS)).trans ?_
      rw [List.cons_append]
      exact List.perm_middle

/-! ### Invariant preservation by an insert -/

theorem enqueueFixup_components (st : TreeState) (pk : PartitionKey) :
    (enqueueFixup st pk).partitions = st.partitions ∧
    (enqueueFixup st pk).vectors = st.vectors ∧
    (enqueueFixup st pk).nextKey = st.nextKey ∧
    (enqueueFixup st pk).maxPartitionSize = st.maxPartitionSize := by
  unfold enqueueFixup
  split <;> exact ⟨rfl, rfl, rfl, rfl⟩

theorem Inv_of_components {st st2 : TreeState} (h : Inv st)
    (hp : st2.partitions = st.partitions) (hv : st2.vectors = st.vectors)
    (hn : st2.nextKey = st.nextKey) (hm : st2.maxPartitionSize = st.maxPartitionSize) :
    Inv st2 := by
  have hrl : rootLevel st2 = rootLevel st := by
    unfold rootLevel getP
    rw [hp]
  exact ⟨by rw [hp, hv, hrl]; exact h.wf,
    by rw [hp, hrl]; exact h.nodupTree,
    by rw [hp, hrl, hn]; exact h.freshTree,
    by rw [hp, hrl]; exact h.dom,
    by rw [hp]; exact h.nodupStore,
    by rw [hm]; exact h.maxPos⟩

theorem leafKeys_congr {s1 s2 : TreeState} (hp : s1.partitions = s2.partitions) :
    leafKeys s1 = leafKeys s2 := by
  unfold leafKeys rootLevel getP
  rw [hp]

theorem insertVec_spec (st : TreeState) (v : Vec) (k : PrimaryKey) (h : Inv st) :
    ∃ st2, insertVec st v k = some st2 ∧ Inv st2 ∧
      (leafKeys st2).Perm (k :: leafKeys st) := by
  obtain ⟨leafPk, hfl, hmem, hwf0⟩ := findLeaf_spec st v (rootLevel st) RootKey h.wf
  obtain ⟨leaf, hleaf, hlv0⟩ := wfAt_lookup hwf0
  obtain ⟨w1, w2, w3⟩ := insert_update st.partitions st.vectors leafPk leaf k v hleaf hlv0
    (rootLevel st) RootKey h.wf h.nodupTree hmem
  have hrl2 : rootLevel (mkInsertState st leafPk leaf k v) = rootLevel st := by
    unfold rootLevel getP mkInsertState
    by_cases hr : RootKey = leafPk
    · rw [← hr] at hleaf ⊢
      rw [lookupP_setP_self st.partitions RootKey _ (by rw [hleaf]; rfl), hleaf]
      rfl
    · simp only
      rw [lookupP_setP_ne st.partitions leafPk _ hr]
  have hInv2 : Inv (mkInsertState st leafPk leaf k v) := by
    refine ⟨?_, ?_, ?_, ?_, ?_, ?_⟩
    · rw [hrl2]
      exact w1
    · rw [hrl2]
      show (subtreePKeys (setP st.partitions leafPk (insertedLeaf leaf k))
        (rootLevel st) RootKey).Nodup
      rw [w2]
      exact h.nodupTree
    · rw [hrl2]
      show ∀ q ∈ subtreePKeys (setP st.partitions leafPk (insertedLeaf leaf k))
        (rootLevel st) RootKey, q < st.nextKey
      rw [w2]
      exact h.freshTree
    · rw [hrl2]
      intro q
      show (lookupP (setP st.partitions leafPk (insertedLeaf leaf k)) q).isSome = true ↔
        q ∈ subtreePKeys (setP st.partitions leafPk (insertedLeaf leaf k))
          (rootLevel st) RootKey
      rw [w2, ← mem_domP_iff, domP_setP, mem_domP_iff]
      exact h.dom q
    · show (domP (setP st.partitions leafPk (insertedLeaf leaf k))).Nodup
      rw [domP_setP]
      exact h.nodupStore
    · exact h.maxPos
  have hlk2 : (leafKeys (mkInsertState st leafPk leaf k v)).Perm (k :: leafKeys st) := by
    unfold leafKeys
    rw [hrl2]
    exact w3
  refine ⟨mkInsertResult st leafPk leaf k v, ?_, ?_, ?_⟩
  · simp only [insertVec, hfl, getP, hleaf]
  · unfold mkInsertResult
    split
    · exact Inv_of_components hInv2 (enqueueFixup_components _ _).1
        (enqueueFixup_components _ _).2.1 (enqueueFixup_components _ _).2.2.1
        (enqueueFixup_components _ _).2.2.2
    · exact hInv2
  · unfold mkInsertResult
    split
    · rw [leafKeys_congr (enqueueFixup_components _ _).1]
      exact hlk2
    · exact hlk2

/-! ### Split support lemmas -/

theorem splitChildren_append (cks : List ChildKey) :
    (splitChildren cks).1 ++ (splitChildren cks).2 = cks :=
  List.take_append_drop _ _

theorem splitChildren_ne_nil {cks : List ChildKey} (h : 2 ≤ cks.length) :
    (splitChildren cks).1 ≠ [] ∧ (splitChildren cks).2 ≠ [] := by
  constructor
  · apply List.ne_nil_of_length_pos
    rw [splitChildren, List.length_take]
    omega
  · apply List.ne_nil_of_length_pos
    rw [splitChildren, List.length_drop]
    omega

theorem filterMap_partOf_subst (pk nL nR : PartitionKey) :
    ∀ cks : List ChildKey,
      (cks.flatMap (substChild pk nL nR)).filterMap partOf
        = (cks.filterMap partOf).flatMap fun c => if c = pk then [nL, nR] else [c]
  | [] => rfl
  | ck :: tl => by
    cases ck with
    | partitionKey c =>
      by_cases hc : c = pk
      · simp [substChild, hc, partOf, filterMap_partOf_subst pk nL nR tl,
          List.filterMap_append]
      · have hck : ChildKey.partitionKey c ≠ ChildKey.partitionKey pk := by
          intro hcc
          injection hcc with h1
          exact hc h1
        simp [substChild, hck, partOf, hc, filterMap_partOf_subst pk nL nR tl,
          List.filterMap_append]
    | primaryKey k =>
      have hck : ChildKey.primaryKey k ≠ ChildKey.partitionKey pk := by
        intro hcc
        cases hcc
      simp [substChild, hck, partOf, filterMap_partOf_subst pk nL nR tl,
        List.filterMap_append]

theorem filterMap_primOf_subst (pk nL nR : PartitionKey) :
    ∀ cks : List ChildKey,
      (cks.flatMap (substChild pk nL nR)).filterMap primOf = cks.filterMap primOf
  | [] => rfl
  | ck :: tl => by
    cases ck with
    | partitionKey c =>
      by_cases hc : c = pk
      · simp [substChild, hc, primOf, filterMap_primOf_subst pk nL nR tl,
          List.filterMap_append]
      · have hck : ChildKey.partitionKey c ≠ ChildKey.partitionKey pk := by
          intro hcc
          injection hcc with h1
          exact hc h1
        simp [substChild, hck, primOf, filterMap_primOf_subst pk nL nR tl,
          List.filterMap_append]
    | primaryKey k =>
      have hck : ChildKey.primaryKey k ≠ ChildKey.partitionKey pk := by
        intro hcc
        cases hcc
      simp [substChild, hck, primOf, filterMap_primOf_subst pk nL nR tl,
        List.filterMap_append]

theorem flatMap_ite_eq_self {l : List PartitionKey} {pk nL nR : PartitionKey}
    (h : pk ∉ l) :
    (l.flatMap fun c => if c = pk then [nL, nR] else [c]) = l := by
  induction l with
  | nil => rfl
  | cons a tl ih =>
    rw [List.flatMap_cons,
      if_neg (fun hc : a = pk => h (hc ▸ List.mem_cons_self a tl)),
      ih (fun hc => h (List.mem_cons_of_mem a hc))]
    rfl

theorem parent_child_in_subtree {ps : PartitionList} {vs : VectorList}
    {parentPk pk : PartitionKey} {parent : Partition}
    (hpar : lookupP ps parentPk = some parent)
    (hchild : ChildKey.partitionKey pk ∈ parent.childKeys) :
    ∀ (l : ℕ) (topPk : PartitionKey), wfAt ps vs l topPk →
      parentPk ∈ subtreePKeys ps l topPk → pk ∈ subtreePKeys ps l topPk
  | 0, topPk, hwf, hmem => by
    have htop : parentPk = topPk := by simpa [subtreePKeys] using hmem
    subst htop
    obtain ⟨p, hp, _, hch⟩ := hwf
    have hpe : p = parent := Option.some.inj (hp.symm.trans hpar)
    obtain ⟨k, hk, _⟩ := hch _ (show ChildKey.partitionKey pk ∈ p.childKeys by
      rw [hpe]; exact hchild)
    exact ChildKey.noConfusion hk
  | l+1, topPk, hwf, hmem => by
    obtain ⟨p, hp, _, _, hch⟩ := hwf
    simp only [subtreePKeys, hp, Option.map_some', Option.getD_some,
      List.mem_cons] at hmem ⊢
    rcases hmem with hmem | hmem
    · subst hmem
      have hpe : p = parent := Option.some.inj (hp.symm.trans hpar)
      refine Or.inr (List.mem_flatMap.mpr ⟨pk, ?_, self_mem_subtreePKeys ps l pk⟩)
      exact mem_partChildren.mpr (by rw [hpe]; exact hchild)
    · rcases List.mem_flatMap.mp hmem with ⟨c, hc, hmemc⟩
      obtain ⟨c', hc', hwfc⟩ := hch _ (mem_partChildren.mp hc)
      have hcc : c = c' := by injection hc' with h1
      refine Or.inr (List.mem_flatMap.mpr ⟨c, hc, ?_⟩)
      exact parent_child_in_subtree hpar hchild l c (by rw [hcc]; exact hwfc) hmemc

theorem lookupP_eraseP_isSome (ps : PartitionList) (pk q : PartitionKey)
    (hnd : (domP ps).Nodup) :
    (lookupP (eraseP ps pk) q).isSome = true ↔
      ((lookupP ps q).isSome = true ∧ q ≠ pk) := by
  by_cases hq : q = pk
  · subst hq
    rw [lookupP_eraseP_self ps q hnd]
    simp
  · rw [lookupP_eraseP_ne ps pk hq]
    simp [hq]

theorem findParentIn_spec :
    ∀ (ps : PartitionList) (pk q : PartitionKey), findParentIn ps pk = some q →
      ∃ p, (q, p) ∈ ps ∧ ChildKey.partitionKey pk ∈ p.childKeys
  | [], _, _, h => by simp [findParentIn] at h
  | e :: rest, pk, q, h => by
    simp only [findParentIn] at h
    by_cases hc : ChildKey.partitionKey pk ∈ e.2.childKeys
    · rw [if_pos hc] at h
      have he : e.1 = q := Option.some.inj h
      refine ⟨e.2, ?_, hc⟩
      rw [← he]
      exact List.mem_cons_self e rest
    · rw [if_neg hc] at h
      obtain ⟨p, hmem, hp⟩ := findParentIn_spec rest pk q h
      exact ⟨p, List.mem_cons_of_mem e hmem, hp⟩

theorem mem_lookupP :
    ∀ (ps : PartitionList) (q : PartitionKey) (p : Partition),
      (domP ps).Nodup → (q, p) ∈ ps → lookupP ps q = some p
  | [], _, _, _, h => absurd h (List.not_mem_nil _)
  | e :: rest, q, p, hnd, h => by
    simp only [domP, List.map_cons, List.nodup_cons] at hnd
    rcases List.mem_cons.mp h with h1 | h1
    · rw [← h1]
      simp [lookupP]
    · have hne : e.1 ≠ q := by
        intro hc
        refine hnd.1 ?_
        rw [hc]
        exact List.mem_map.mpr ⟨(q, p), h1, rfl⟩
      simp only [lookupP, if_neg hne]
      exact mem_lookupP rest q p hnd.2 h1

/-! ### Lookups in the split store -/

theorem subtreePKeys_eq_cons (ps : PartitionList) (l : ℕ) (pk : PartitionKey) :
    ∃ tail, subtreePKeys ps l pk = pk :: tail := by
  cases l with
  | zero => exact ⟨[], rfl⟩
  | succ m => exact ⟨_, rfl⟩

theorem lookupP_splitStore_nL (ps : PartitionList) (parentPk pk nL nR : PartitionKey)
    (parent target : Partition) (cL cR : Vec) :
    lookupP (splitStore ps parentPk pk nL nR parent target cL cR) nL
      = some (leftPart target cL) := by
  simp [splitStore, lookupP]

theorem lookupP_splitStore_nR (ps : PartitionList) (parentPk pk nL nR : PartitionKey)
    (parent target : Partition) (cL cR : Vec) (hnLR : nL ≠ nR) :
    lookupP (splitStore ps parentPk pk nL nR parent target cL cR) nR
      = some (rightPart target cR) := by
  simp [splitStore, lookupP, hnLR]

theorem lookupP_splitStore_ne (ps : PartitionList) (parentPk pk nL nR : PartitionKey)
    (parent target : Partition) (cL cR : Vec) {q : PartitionKey}
    (hq1 : q ≠ nL) (hq2 : q ≠ nR) (hq3 : q ≠ parentPk) (hq4 : q ≠ pk) :
    lookupP (splitStore ps parentPk pk nL nR parent target cL cR) q = lookupP ps q := by
  simp only [splitStore, lookupP, if_neg (fun hc : nL = q => hq1 hc.symm),
    if_neg (fun hc : nR = q => hq2 hc.symm)]
  rw [lookupP_setP_ne _ _ _ hq3, lookupP_eraseP_ne _ _ hq4]

theorem lookupP_splitStore_parent (ps : PartitionList)
    (parentPk pk nL nR : PartitionKey) (parent target : Partition) (cL cR : Vec)
    (hq1 : parentPk ≠ nL) (hq2 : parentPk ≠ nR) (hq3 : parentPk ≠ pk)
    (hpar : lookupP ps parentPk = some parent) :
    lookupP (splitStore ps parentPk pk nL nR parent target cL cR) parentPk
      = some (splitParent pk nL nR parent) := by
  simp only [splitStore, lookupP, if_neg (fun hc : nL = parentPk => hq1 hc.symm),
    if_neg (fun hc : nR = parentPk => hq2 hc.symm)]
  apply lookupP_setP_self
  rw [lookupP_eraseP_ne _ _ hq3, hpar]
  rfl

/-! ### The two new partitions of a split are well formed and carry exactly
the split partition's keys. -/

theorem split_new_partitions (ps ps2 : PartitionList) (vs : VectorList)
    (exclPk pk nL nR : PartitionKey) (target : Partition) (cL cR : Vec)
    (hlookL : lookupP ps2 nL = some (leftPart target cL))
    (hlookR : lookupP ps2 nR = some (rightPart target cR))
    (hlookNe : ∀ q, q ≠ nL → q ≠ nR → q ≠ exclPk → q ≠ pk →
      lookupP ps2 q = lookupP ps q)
    (htgt : lookupP ps pk = some target)
    (hsz : 2 ≤ target.childKeys.length)
    (l : ℕ) (hwft : wfAt ps vs l pk)
    (hndS : (subtreePKeys ps l pk).Nodup)
    (hnLS : nL ∉ subtreePKeys ps l pk)
    (hnRS : nR ∉ subtreePKeys ps l pk)
    (hexclS : exclPk ∉ subtreePKeys ps l pk ∨ exclPk = pk) :
    ∃ SL SR : List PartitionKey,
      subtreePKeys (ps2) l nL
        = nL :: SL ∧
      subtreePKeys (ps2) l nR
        = nR :: SR ∧
      (subtreePKeys ps l pk : Multiset PartitionKey)
        = pk ::ₘ ((SL : Multiset PartitionKey) + (SR : Multiset PartitionKey)) ∧
      wfAt (ps2) vs l nL ∧
      wfAt (ps2) vs l nR ∧
      subtreeLeafKeys (ps2) l nL
          ++ subtreeLeafKeys (ps2) l nR
        = subtreeLeafKeys ps l pk := by
  cases l with
  | zero =>
    obtain ⟨p, hp, hl0, hch⟩ := hwft
    have hpe : target = p := Option.some.inj (htgt.symm.trans hp)
    subst hpe
    refine ⟨[], [], ?_, ?_, ?_, ?_, ?_, ?_⟩
    · simp [subtreePKeys, hlookL]
    · simp [subtreePKeys, hlookR]
    · simp [subtreePKeys]
    · refine ⟨leftPart target cL, hlookL, hl0, ?_⟩
      intro ck hck
      have hck2 : ck ∈ target.childKeys := List.take_subset _ _ hck
      exact hch ck hck2
    · refine ⟨rightPart target cR,
        hlookR, hl0, ?_⟩
      intro ck hck
      have hck2 : ck ∈ target.childKeys := List.drop_subset _ _ hck
      exact hch ck hck2
    · simp only [subtreeLeafKeys, hlookL,
        hlookR,
        hp, Option.map_some', Option.getD_some]
      show (leftPart target cL).primChildren ++ (rightPart target cR).primChildren
        = target.primChildren
      unfold leftPart rightPart Partition.primChildren
      rw [← List.filterMap_append, splitChildren_append]
  | succ m =>
    obtain ⟨p, hp, hlv, _, hch⟩ := hwft
    have hpe : target = p := Option.some.inj (htgt.symm.trans hp)
    subst hpe
    have hchwf : ∀ c ∈ target.partChildren, wfAt ps vs m c := by
      intro c hc
      obtain ⟨c', hc', hwfc⟩ := hch _ (mem_partChildren.mp hc)
      have hcc : c = c' := by injection hc' with h1
      rw [hcc]
      exact hwfc
    have hsub : ∀ c ∈ target.partChildren, ∀ x ∈ subtreePKeys ps m c,
        x ∈ target.partChildren.flatMap (subtreePKeys ps m) := by
      intro c hc x hx
      exact List.mem_flatMap.mpr ⟨c, hc, hx⟩
    have hndf : pk ∉ target.partChildren.flatMap (subtreePKeys ps m) := by
      have := hndS
      simp only [subtreePKeys, hp, Option.map_some', Option.getD_some,
        List.nodup_cons] at this
      exact this.1
    have hmemtail : ∀ x, x ∈ target.partChildren.flatMap (subtreePKeys ps m) →
        x ∈ subtreePKeys ps (m+1) pk := by
      intro x hx
      simp only [subtreePKeys, hp, Option.map_some', Option.getD_some, List.mem_cons]
      exact Or.inr hx
    have hframe : ∀ c ∈ target.partChildren,
        wfAt (ps2) vs m c ∧
        subtreePKeys (ps2) m c
          = subtreePKeys ps m c ∧
        subtreeLeafKeys (ps2) m c
          = subtreeLeafKeys ps m c := by
      intro c hc
      refine wf_frame (fun _ h => h) m c (hchwf c hc) ?_
      intro q hq
      have hqt := hsub c hc q hq
      refine hlookNe q ?_ ?_ ?_ ?_
      · intro hqeq
        exact hnLS (hqeq ▸ hmemtail q hqt)
      · intro hqeq
        exact hnRS (hqeq ▸ hmemtail q hqt)
      · rcases hexclS with hex | hex
        · intro hqeq
          exact hex (hqeq ▸ hmemtail q hqt)
        · rw [hex]
          intro hqeq
          exact hndf (hqeq ▸ hqt)
      · intro hqeq
        exact hndf (hqeq ▸ hqt)
    have hCA : (leftPart target cL).partChildren
        = ((splitChildren target.childKeys).1).filterMap partOf := rfl
    have hCB : (rightPart target cR).partChildren
        = ((splitChildren target.childKeys).2).filterMap partOf := rfl
    have hCsplit : target.partChildren
        = ((splitChildren target.childKeys).1).filterMap partOf
          ++ ((splitChildren target.childKeys).2).filterMap partOf := by
      unfold Partition.partChildren
      rw [← List.filterMap_append, splitChildren_append]
    have hmemA : ∀ c ∈ ((splitChildren target.childKeys).1).filterMap partOf,
        c ∈ target.partChildren := by
      intro c hc
      rw [hCsplit]
      exact List.mem_append_left _ hc
    have hmemB : ∀ c ∈ ((splitChildren target.childKeys).2).filterMap partOf,
        c ∈ target.partChildren := by
      intro c hc
      rw [hCsplit]
      exact List.mem_append_right _ hc
    refine ⟨((splitChildren target.childKeys).1).filterMap partOf
        |>.flatMap (subtreePKeys ps m),
      ((splitChildren target.childKeys).2).filterMap partOf
        |>.flatMap (subtreePKeys ps m), ?_, ?_, ?_, ?_, ?_, ?_⟩
    · simp only [subtreePKeys, hlookL, Option.map_some', Option.getD_some]
      congr 1
      refine flatMap_congr ?_
      intro c hc
      exact (hframe c (hmemA c hc)).2.1
    · simp only [subtreePKeys,
        hlookR,
        Option.map_some', Option.getD_some]
      congr 1
      refine flatMap_congr ?_
      intro c hc
      exact (hframe c (hmemB c hc)).2.1
    · simp only [subtreePKeys, hp, Option.map_some', Option.getD_some]
      rw [hCsplit, List.flatMap_append]
      rw [← Multiset.cons_coe, ← Multiset.coe_add]
    · refine ⟨leftPart target cL, hlookL, hlv, ?_, ?_⟩
      · show (splitChildren target.childKeys).1 ≠ []
        exact (splitChildren_ne_nil hsz).1
      · intro ck hck
        have hck2 : ck ∈ target.childKeys := List.take_subset _ _ hck
        obtain ⟨c, hc, _⟩ := hch ck hck2
        refine ⟨c, hc, ?_⟩
        exact (hframe c (mem_partChildren.mpr (hc ▸ hck2))).1
    · refine ⟨rightPart target cR,
        hlookR, hlv, ?_, ?_⟩
      · show (splitChildren target.childKeys).2 ≠ []
        exact (splitChildren_ne_nil hsz).2
      · intro ck hck
        have hck2 : ck ∈ target.childKeys := List.drop_subset _ _ hck
        obtain ⟨c, hc, _⟩ := hch ck hck2
        refine ⟨c, hc, ?_⟩
        exact (hframe c (mem_partChildren.mpr (hc ▸ hck2))).1
    · simp only [subtreeLeafKeys, hlookL,
        hlookR,
        hp, Option.map_some', Option.getD_some]
      have hA : (((leftPart target cL).partChildren).flatMap
          (subtreeLeafKeys (ps2) m))
          = (((splitChildren target.childKeys).1).filterMap partOf).flatMap
            (subtreeLeafKeys ps m) := by
        rw [hCA]
        refine flatMap_congr ?_
        intro c hc
        exact (hframe c (hmemA c hc)).2.2
      have hB : (((rightPart target cR).partChildren).flatMap
          (subtreeLeafKeys (ps2) m))
          = (((splitChildren target.childKeys).2).filterMap partOf).flatMap
            (subtreeLeafKeys ps m) := by
        rw [hCB]
        refine flatMap_congr ?_
        intro c hc
        exact (hframe c (hmemB c hc)).2.2
      rw [hA, hB, ← List.flatMap_append, ← hCsplit]

/-! ### Effect of a non-root split on any subtree containing the parent -/

theorem split_update (ps : PartitionList) (vs : VectorList)
    (parentPk pk nL nR : PartitionKey) (parent target : Partition) (cL cR : Vec)
    (hpar : lookupP ps parentPk = some parent)
    (htgt : lookupP ps pk = some target)
    (hchild : ChildKey.partitionKey pk ∈ parent.childKeys)
    (hsz : 2 ≤ target.childKeys.length)
    (hnLR : nL ≠ nR) :
    ∀ (l : ℕ) (topPk : PartitionKey), wfAt ps vs l topPk →
      (subtreePKeys ps l topPk).Nodup →
      parentPk ∈ subtreePKeys ps l topPk →
      nL ∉ subtreePKeys ps l topPk →
      nR ∉ subtreePKeys ps l topPk →
      ∃ rest : Multiset PartitionKey,
        (subtreePKeys ps l topPk : Multiset PartitionKey) = pk ::ₘ rest ∧
        (subtreePKeys (splitStore ps parentPk pk nL nR parent target cL cR) l topPk
          : Multiset PartitionKey) = nL ::ₘ nR ::ₘ rest ∧
        subtreeLeafKeys (splitStore ps parentPk pk nL nR parent target cL cR) l topPk
          = subtreeLeafKeys ps l topPk ∧
        wfAt (splitStore ps parentPk pk nL nR parent target cL cR) vs l topPk
  | 0, topPk, hwf, _, hmem, _, _ => by
    have htop : parentPk = topPk := by simpa [subtreePKeys] using hmem
    subst htop
    obtain ⟨p, hp, _, hch⟩ := hwf
    have hpe : parent = p := Option.some.inj (hpar.symm.trans hp)
    subst hpe
    obtain ⟨k, hk, _⟩ := hch _ hchild
    exact ChildKey.noConfusion hk
  | m+1, topPk, hwf, hnd, hmem, hnLtop, hnRtop => by
    obtain ⟨p, hp, hlv, hne2, hch⟩ := hwf
    have hchwf : ∀ c ∈ p.partChildren, wfAt ps vs m c := by
      intro c hc
      obtain ⟨c', hc', hwfc⟩ := hch _ (mem_partChildren.mp hc)
      have hcc : c = c' := by injection hc' with h1
      rw [hcc]
      exact hwfc
    have hself : topPk ∈ subtreePKeys ps (m+1) topPk := self_mem_subtreePKeys ps (m+1) topPk
    have hndc : topPk ∉ p.partChildren.flatMap (subtreePKeys ps m) ∧
        (p.partChildren.flatMap (subtreePKeys ps m)).Nodup := by
      have := hnd
      simp only [subtreePKeys, hp, Option.map_some', Option.getD_some,
        List.nodup_cons] at this
      exact this
    have hmemtail : ∀ x, x ∈ p.partChildren.flatMap (subtreePKeys ps m) →
        x ∈ subtreePKeys ps (m+1) topPk := by
      intro x hx
      simp only [subtreePKeys, hp, Option.map_some', Option.getD_some, List.mem_cons]
      exact Or.inr hx
    by_cases htp : topPk = parentPk
    · -- the node being rewritten
      subst htp
      have hpe : parent = p := Option.some.inj (hpar.symm.trans hp)
      subst hpe
      have hpkC : pk ∈ parent.partChildren := mem_partChildren.mpr hchild
      obtain ⟨L, R, hLR⟩ := List.append_of_mem hpkC
      have hndf := hndc.2
      rw [hLR, List.flatMap_append, List.flatMap_cons] at hndf
      have hs1 := List.nodup_append.mp hndf
      have hs2 := List.nodup_append.mp hs1.2.1
      have hnSpk : (subtreePKeys ps m pk).Nodup := hs2.1
      have hdisjFL := hs1.2.2
      have hdisjSpkFR := hs2.2.2
      have hpkSpk : pk ∈ subtreePKeys ps m pk := self_mem_subtreePKeys ps m pk
      have hpkFL : pk ∉ L.flatMap (subtreePKeys ps m) := by
        intro hc
        exact hdisjFL hc (List.mem_append_left _ hpkSpk)
      have hpkFR : pk ∉ R.flatMap (subtreePKeys ps m) := by
        intro hc
        exact hdisjSpkFR hpkSpk hc
      have hpkL : pk ∉ L := by
        intro hc
        exact hpkFL (List.mem_flatMap.mpr ⟨pk, hc, hpkSpk⟩)
      have hpkR : pk ∉ R := by
        intro hc
        exact hpkFR (List.mem_flatMap.mpr ⟨pk, hc, hpkSpk⟩)
      have hpkflat : pk ∈ parent.partChildren.flatMap (subtreePKeys ps m) :=
        List.mem_flatMap.mpr ⟨pk, hpkC, hpkSpk⟩
      have hparpk : topPk ≠ pk := by
        intro hc
        exact hndc.1 (hc ▸ hpkflat)
      have hSpkSub : ∀ x ∈ subtreePKeys ps m pk,
          x ∈ parent.partChildren.flatMap (subtreePKeys ps m) := by
        intro x hx
        exact List.mem_flatMap.mpr ⟨pk, hpkC, hx⟩
      obtain ⟨SL, SR, hSL, hSR, hSpkEq, hwfL, hwfR, hleafLR⟩ :=
        split_new_partitions ps (splitStore ps topPk pk nL nR parent target cL cR) vs
          topPk pk nL nR target cL cR
          (lookupP_splitStore_nL ps topPk pk nL nR parent target cL cR)
          (lookupP_splitStore_nR ps topPk pk nL nR parent target cL cR hnLR)
          (fun q h1 h2 h3 h4 =>
            lookupP_splitStore_ne ps topPk pk nL nR parent target cL cR h1 h2 h3 h4)
          htgt hsz
          m (hchwf pk hpkC) hnSpk
          (fun hc => hnLtop (hmemtail nL (hSpkSub nL hc)))
          (fun hc => hnRtop (hmemtail nR (hSpkSub nR hc)))
          (Or.inl (fun hc => hndc.1 (hSpkSub topPk hc)))
      have hframe : ∀ c, (c ∈ L ∨ c ∈ R) →
          wfAt (splitStore ps topPk pk nL nR parent target cL cR) vs m c ∧
          subtreePKeys (splitStore ps topPk pk nL nR parent target cL cR) m c
            = subtreePKeys ps m c ∧
          subtreeLeafKeys (splitStore ps topPk pk nL nR parent target cL cR) m c
            = subtreeLeafKeys ps m c := by
        intro c hc
        have hcC : c ∈ parent.partChildren := by
          rw [hLR]
          rcases hc with hc | hc
          · exact List.mem_append_left _ hc
          · exact List.mem_append_right _ (List.mem_cons_of_mem _ hc)
        refine wf_frame (fun _ h => h) m c (hchwf c hcC) ?_
        intro q hq
        have hqflat : q ∈ parent.partChildren.flatMap (subtreePKeys ps m) :=
          List.mem_flatMap.mpr ⟨c, hcC, hq⟩
        have hqpk : q ≠ pk := by
          intro hqeq
          subst hqeq
          rcases hc with hc | hc
          · exact hpkFL (List.mem_flatMap.mpr ⟨c, hc, hq⟩)
          · exact hpkFR (List.mem_flatMap.mpr ⟨c, hc, hq⟩)
        refine lookupP_splitStore_ne ps topPk pk nL nR parent target cL cR ?_ ?_ ?_ hqpk
        · intro hqeq
          exact hnLtop (hqeq ▸ hmemtail q hqflat)
        · intro hqeq
          exact hnRtop (hqeq ▸ hmemtail q hqflat)
        · intro hqeq
          exact hndc.1 (hqeq ▸ hqflat)
      have hparnL : topPk ≠ nL := by
        intro hc
        exact hnLtop (hc ▸ hself)
      have hparnR : topPk ≠ nR := by
        intro hc
        exact hnRtop (hc ▸ hself)
      have hlook : lookupP (splitStore ps topPk pk nL nR parent target cL cR) topPk
          = some (splitParent pk nL nR parent) :=
        lookupP_splitStore_parent ps topPk pk nL nR parent target cL cR
          hparnL hparnR hparpk hpar
      have hC2 : (splitParent pk nL nR parent).partChildren = L ++ nL :: nR :: R := by
        show ((parent.childKeys.flatMap (substChild pk nL nR)).filterMap partOf)
          = L ++ nL :: nR :: R
        rw [filterMap_partOf_subst]
        show (parent.partChildren.flatMap fun c => if c = pk then [nL, nR] else [c])
          = L ++ nL :: nR :: R
        rw [hLR, List.flatMap_append, List.flatMap_cons, if_pos rfl,
          flatMap_ite_eq_self hpkL, flatMap_ite_eq_self hpkR]
        rfl
      have hOld : subtreePKeys ps (m+1) topPk
          = topPk :: (L.flatMap (subtreePKeys ps m)
            ++ (subtreePKeys ps m pk ++ R.flatMap (subtreePKeys ps m))) := by
        simp only [subtreePKeys, hp, Option.map_some', Option.getD_some]
        rw [hLR, List.flatMap_append, List.flatMap_cons]
      have hFLeq : L.flatMap
          (subtreePKeys (splitStore ps topPk pk nL nR parent target cL cR) m)
          = L.flatMap (subtreePKeys ps m) :=
        flatMap_congr (fun c hc => (hframe c (Or.inl hc)).2.1)
      have hFReq : R.flatMap
          (subtreePKeys (splitStore ps topPk pk nL nR parent target cL cR) m)
          = R.flatMap (subtreePKeys ps m) :=
        flatMap_congr (fun c hc => (hframe c (Or.inr hc)).2.1)
      have hNew : subtreePKeys (splitStore ps topPk pk nL nR parent target cL cR)
          (m+1) topPk
          = topPk :: (L.flatMap (subtreePKeys ps m)
            ++ ((nL :: SL) ++ ((nR :: SR) ++ R.flatMap (subtreePKeys ps m)))) := by
        simp only [subtreePKeys, hlook, Option.map_some', Option.getD_some]
        rw [hC2, List.flatMap_append, List.flatMap_cons, List.flatMap_cons,
          hFLeq, hFReq, hSL, hSR]
      refine ⟨topPk ::ₘ ((L.flatMap (subtreePKeys ps m) : Multiset PartitionKey)
        + (((SL : Multiset PartitionKey) + (SR : Multiset PartitionKey))
          + (R.flatMap (subtreePKeys ps m) : Multiset PartitionKey))), ?_, ?_, ?_, ?_⟩
      · rw [hOld]
        simp only [← Multiset.cons_coe, ← Multiset.coe_add]
        rw [hSpkEq]
        simp only [← Multiset.singleton_add]
        abel
      · rw [hNew]
        simp only [← Multiset.cons_coe, ← Multiset.coe_add]
        simp only [← Multiset.singleton_add]
        abel
      · simp only [subtreeLeafKeys, hlook, hp, Option.map_some', Option.getD_some]
        rw [hC2, hLR, List.flatMap_append, List.flatMap_cons,
          List.flatMap_append, List.flatMap_cons, List.flatMap_cons]
        have hFLl := flatMap_congr
          (fun c hc => (hframe c (Or.inl hc)).2.2) (l := L)
        have hFRl := flatMap_congr
          (fun c hc => (hframe c (Or.inr hc)).2.2) (l := R)
        rw [hFLl, hFRl, ← hleafLR, List.append_assoc]
      · refine ⟨splitParent pk nL nR parent, hlook, hlv, ?_, ?_⟩
        · intro hc
          have : (splitParent pk nL nR parent).partChildren = [] := by
            show ((splitParent pk nL nR parent).childKeys).filterMap partOf = []
            rw [hc]
            rfl
          rw [hC2] at this
          cases L with
          | nil => cases this
          | cons a tl => cases this
        · intro ck hck
          obtain ⟨ck0, hck0, hcksub⟩ := List.mem_flatMap.mp hck
          by_cases hck0pk : ck0 = ChildKey.partitionKey pk
          · rw [hck0pk] at hcksub
            have hsc : substChild pk nL nR (ChildKey.partitionKey pk)
                = [ChildKey.partitionKey nL, ChildKey.partitionKey nR] := by
              simp [substChild]
            rw [hsc] at hcksub
            rcases List.mem_cons.mp hcksub with h1 | h1
            · exact ⟨nL, h1, hwfL⟩
            · rcases List.mem_cons.mp h1 with h2 | h2
              · exact ⟨nR, h2, hwfR⟩
              · exact absurd h2 (List.not_mem_nil ck)
          · simp only [substChild, if_neg hck0pk, List.mem_singleton] at hcksub
            subst hcksub
            obtain ⟨c, hc, _⟩ := hch ck hck0
            have hcpk : c ≠ pk := by
              intro hceq
              exact hck0pk (by rw [hc, hceq])
            have hcC : c ∈ parent.partChildren := mem_partChildren.mpr (hc ▸ hck0)
            have hcLR : c ∈ L ∨ c ∈ R := by
              have hcC2 := hcC
              rw [hLR] at hcC2
              rcases List.mem_append.mp hcC2 with h1 | h1
              · exact Or.inl h1
              · rcases List.mem_cons.mp h1 with h2 | h2
                · exact absurd h2 hcpk
                · exact Or.inr h2
            exact ⟨c, hc, (hframe c hcLR).1⟩
    · -- descend: the parent is strictly below topPk
      have hmem' : parentPk ∈ p.partChildren.flatMap (subtreePKeys ps m) := by
        simp only [subtreePKeys, hp, Option.map_some', Option.getD_some,
          List.mem_cons] at hmem
        rcases hmem with hmem | hmem
        · exact absurd hmem.symm htp
        · exact hmem
      obtain ⟨cstar, hcstar, hparin⟩ := List.mem_flatMap.mp hmem'
      obtain ⟨L, R, hLR⟩ := List.append_of_mem hcstar
      have hndf := hndc.2
      rw [hLR, List.flatMap_append, List.flatMap_cons] at hndf
      have hs1 := List.nodup_append.mp hndf
      have hs2 := List.nodup_append.mp hs1.2.1
      have hnSC : (subtreePKeys ps m cstar).Nodup := hs2.1
      have hdisjFL := hs1.2.2
      have hdisjSCFR := hs2.2.2
      have hpkin : pk ∈ subtreePKeys ps m cstar :=
        parent_child_in_subtree hpar hchild m cstar (hchwf cstar hcstar) hparin
      have hSCsub : ∀ x ∈ subtreePKeys ps m cstar,
          x ∈ p.partChildren.flatMap (subtreePKeys ps m) := by
        intro x hx
        exact List.mem_flatMap.mpr ⟨cstar, hcstar, hx⟩
      obtain ⟨restC, e1, e2, e3, e4⟩ :=
        split_update ps vs parentPk pk nL nR parent target cL cR hpar htgt hchild hsz
          hnLR m cstar (hchwf cstar hcstar) hnSC hparin
          (fun hc => hnLtop (hmemtail nL (hSCsub nL hc)))
          (fun hc => hnRtop (hmemtail nR (hSCsub nR hc)))
      have hparFL : parentPk ∉ L.flatMap (subtreePKeys ps m) := by
        intro hc
        exact hdisjFL hc (List.mem_append_left _ hparin)
      have hparFR : parentPk ∉ R.flatMap (subtreePKeys ps m) := by
        intro hc
        exact hdisjSCFR hparin hc
      have hpkFL : pk ∉ L.flatMap (subtreePKeys ps m) := by
        intro hc
        exact hdisjFL hc (List.mem_append_left _ hpkin)
      have hpkFR : pk ∉ R.flatMap (subtreePKeys ps m) := by
        intro hc
        exact hdisjSCFR hpkin hc
      have hframe : ∀ c, (c ∈ L ∨ c ∈ R) →
          wfAt (splitStore ps parentPk pk nL nR parent target cL cR) vs m c ∧
          subtreePKeys (splitStore ps parentPk pk nL nR parent target cL cR) m c
            = subtreePKeys ps m c ∧
          subtreeLeafKeys (splitStore ps parentPk pk nL nR parent target cL cR) m c
            = subtreeLeafKeys ps m c := by
        intro c hc
        have hcC : c ∈ p.partChildren := by
          rw [hLR]
          rcases hc with hc | hc
          · exact List.mem_append_left _ hc
          · exact List.mem_append_right _ (List.mem_cons_of_mem _ hc)
        refine wf_frame (fun _ h => h) m c (hchwf c hcC) ?_
        intro q hq
        have hqflat : q ∈ p.partChildren.flatMap (subtreePKeys ps m) :=
          List.mem_flatMap.mpr ⟨c, hcC, hq⟩
        refine lookupP_splitStore_ne ps parentPk pk nL nR parent target cL cR ?_ ?_ ?_ ?_
        · intro hqeq
          exact hnLtop (hqeq ▸ hmemtail q hqflat)
        · intro hqeq
          exact hnRtop (hqeq ▸ hmemtail q hqflat)
        · intro hqeq
          subst hqeq
          rcases hc with hc | hc
          · exact hparFL (List.mem_flatMap.mpr ⟨c, hc, hq⟩)
          · exact hparFR (List.mem_flatMap.mpr ⟨c, hc, hq⟩)
        · intro hqeq
          subst hqeq
          rcases hc with hc | hc
          · exact hpkFL (List.mem_flatMap.mpr ⟨c, hc, hq⟩)
          · exact hpkFR (List.mem_flatMap.mpr ⟨c, hc, hq⟩)
      have htopnL : topPk ≠ nL := by
        intro hc
        exact hnLtop (hc ▸ hself)
      have htopnR : topPk ≠ nR := by
        intro hc
        exact hnRtop (hc ▸ hself)
      have htoppk : topPk ≠ pk := by
        intro hc
        exact hndc.1 (hc ▸ hSCsub pk hpkin)
      have hlook : lookupP (splitStore ps parentPk pk nL nR parent target cL cR) topPk
          = some p := by
        rw [lookupP_splitStore_ne ps parentPk pk nL nR parent target cL cR
          htopnL htopnR htp htoppk, hp]
      have hOld : subtreePKeys ps (m+1) topPk
          = topPk :: (L.flatMap (subtreePKeys ps m)
            ++ (subtreePKeys ps m cstar ++ R.flatMap (subtreePKeys ps m))) := by
        simp only [subtreePKeys, hp, Option.map_some', Option.getD_some]
        rw [hLR, List.flatMap_append, List.flatMap_cons]
      have hFLeq : L.flatMap
          (subtreePKeys (splitStore ps parentPk pk nL nR parent target cL cR) m)
          = L.flatMap (subtreePKeys ps m) :=
        flatMap_congr (fun c hc => (hframe c (Or.inl hc)).2.1)
      have hFReq : R.flatMap
          (subtreePKeys (splitStore ps parentPk pk nL nR parent target cL cR) m)
          = R.flatMap (subtreePKeys ps m) :=
        flatMap_congr (fun c hc => (hframe c (Or.inr hc)).2.1)
      have hNew : (subtreePKeys (splitStore ps parentPk pk nL nR parent target cL cR)
          (m+1) topPk : Multiset PartitionKey)
          = topPk ::ₘ ((L.flatMap (subtreePKeys ps m) : Multiset PartitionKey)
            + ((subtreePKeys (splitStore ps parentPk pk nL nR parent target cL cR) m cstar
              : Multiset PartitionKey)
              + (R.flatMap (subtreePKeys ps m) : Multiset PartitionKey))) := by
        have : subtreePKeys (splitStore ps parentPk pk nL nR parent target cL cR)
            (m+1) topPk
            = topPk :: (L.flatMap (subtreePKeys ps m)
              ++ (subtreePKeys (splitStore ps parentPk pk nL nR parent target cL cR) m cstar
                ++ R.flatMap (subtreePKeys ps m))) := by
          simp only [subtreePKeys, hlook, Option.map_some', Option.getD_some]
          rw [hLR, List.flatMap_append, List.flatMap_cons, hFLeq, hFReq]
        rw [this]
        simp only [← Multiset.cons_coe, ← Multiset.coe_add]
      refine ⟨topPk ::ₘ ((L.flatMap (subtreePKeys ps m) : Multiset PartitionKey)
        + (restC + (R.flatMap (subtreePKeys ps m) : Multiset PartitionKey))), ?_, ?_, ?_, ?_⟩
      · rw [hOld]
        simp only [← Multiset.cons_coe, ← Multiset.coe_add]
        rw [e1]
        simp only [← Multiset.singleton_add]
        abel
      · rw [hNew, e2]
        simp only [← Multiset.singleton_add]
        abel
      · simp only [subtreeLeafKeys, hlook, hp, Option.map_some', Option.getD_some]
        rw [hLR, List.flatMap_append, List.flatMap_cons,
          List.flatMap_append, List.flatMap_cons]
        rw [flatMap_congr (fun c hc => (hframe c (Or.inl hc)).2.2) (l := L),
          flatMap_congr (fun c hc => (hframe c (Or.inr hc)).2.2) (l := R), e3]
      · refine ⟨p, hlook, hlv, hne2, ?_⟩
        intro ck hck
        obtain ⟨c, hc, _⟩ := hch ck hck
        have hcC : c ∈ p.partChildren := mem_partChildren.mpr (hc ▸ hck)
        by_cases hcs : c = cstar
        · subst hcs
          exact ⟨c, hc, e4⟩
        · have hcLR : c ∈ L ∨ c ∈ R := by
            have hcC2 := hcC
            rw [hLR] at hcC2
            rcases List.mem_append.mp hcC2 with h1 | h1
            · exact Or.inl h1
            · rcases List.mem_cons.mp h1 with h2 | h2
              · exact absurd h2 hcs
              · exact Or.inr h2
          exact ⟨c, hc, (hframe c hcLR).1⟩

/-! ### Root split preserves the invariants and the leaf keys -/

theorem applyRootSplit_spec (st : TreeState) (root : Partition) (h : Inv st)
    (hroot : lookupP st.partitions RootKey = some root)
    (hover : st.maxPartitionSize < root.childKeys.length) :
    Inv (applyRootSplit st root) ∧ leafKeys (applyRootSplit st root) = leafKeys st := by
  have hrl : rootLevel st = root.level := by
    unfold rootLevel getP
    rw [hroot]
    rfl
  have hsz : 2 ≤ root.childKeys.length := by
    have := h.maxPos
    omega
  have hRfresh : RootKey < st.nextKey :=
    h.freshTree RootKey (self_mem_subtreePKeys _ _ _)
  have hnLsub : st.nextKey ∉ subtreePKeys st.partitions (rootLevel st) RootKey := by
    intro hc
    exact absurd (h.freshTree _ hc) (lt_irrefl _)
  have hnRsub : st.nextKey + 1 ∉ subtreePKeys st.partitions (rootLevel st) RootKey := by
    intro hc
    exact Nat.lt_asymm (Nat.lt_succ_self _) (h.freshTree _ hc)
  have hsubfresh : ∀ x ∈ subtreePKeys st.partitions (rootLevel st) RootKey,
      x < st.nextKey := h.freshTree
  have hlookL : lookupP (applyRootSplit st root).partitions st.nextKey
      = some (leftPart root (centroidOf st (splitChildren root.childKeys).1)) := by
    simp [applyRootSplit, lookupP, splitLeft, leftPart]
  have hlookR : lookupP (applyRootSplit st root).partitions (st.nextKey + 1)
      = some (rightPart root (centroidOf st (splitChildren root.childKeys).2)) := by
    simp [applyRootSplit, lookupP, splitRight, rightPart]
  have hlookNe : ∀ q, q ≠ st.nextKey → q ≠ st.nextKey + 1 → q ≠ RootKey → q ≠ RootKey →
      lookupP (applyRootSplit st root).partitions q = lookupP st.partitions q := by
    intro q h1 h2 h3 _
    show lookupP ((st.nextKey, splitLeft st root) :: (st.nextKey + 1, splitRight st root)
      :: setP st.partitions RootKey (newRoot st.nextKey (st.nextKey + 1) root)) q
      = lookupP st.partitions q
    simp only [lookupP, if_neg (fun hc : st.nextKey = q => h1 hc.symm),
      if_neg (fun hc : st.nextKey + 1 = q => h2 hc.symm)]
    exact lookupP_setP_ne _ _ _ h3
  have hRnL : RootKey ≠ st.nextKey := Nat.ne_of_lt hRfresh
  have hRnR : RootKey ≠ st.nextKey + 1 := Nat.ne_of_lt (Nat.lt_succ_of_lt hRfresh)
  have hlookRoot : lookupP (applyRootSplit st root).partitions RootKey
      = some (newRoot st.nextKey (st.nextKey + 1) root) := by
    show lookupP ((st.nextKey, splitLeft st root) :: (st.nextKey + 1, splitRight st root)
      :: setP st.partitions RootKey (newRoot st.nextKey (st.nextKey + 1) root)) RootKey
      = some (newRoot st.nextKey (st.nextKey + 1) root)
    simp only [lookupP, if_neg (fun hc : st.nextKey = RootKey => hRnL hc.symm),
      if_neg (fun hc : st.nextKey + 1 = RootKey => hRnR hc.symm)]
    apply lookupP_setP_self
    rw [hroot]
    rfl
  obtain ⟨SL, SR, hSL, hSR, hEq, hwfL, hwfR, hleafLR⟩ :=
    split_new_partitions st.partitions (applyRootSplit st root).partitions st.vectors
      RootKey RootKey st.nextKey (st.nextKey + 1) root
      (centroidOf st (splitChildren root.childKeys).1)
      (centroidOf st (splitChildren root.childKeys).2)
      hlookL hlookR hlookNe hroot hsz (rootLevel st) h.wf h.nodupTree
      hnLsub hnRsub (Or.inr rfl)
  have hrl2 : rootLevel (applyRootSplit st root) = rootLevel st + 1 := by
    unfold rootLevel getP
    rw [hlookRoot, hroot]
    rfl
  have hpartsNR : (newRoot st.nextKey (st.nextKey + 1) root).partChildren
      = [st.nextKey, st.nextKey + 1] := rfl
  have hNew : subtreePKeys (applyRootSplit st root).partitions (rootLevel st + 1) RootKey
      = RootKey :: ((st.nextKey :: SL) ++ (((st.nextKey + 1) :: SR) ++ [])) := by
    simp only [subtreePKeys, hlookRoot, Option.map_some', Option.getD_some]
    rw [hpartsNR]
    simp only [List.flatMap_cons, List.flatMap_nil]
    rw [hSL, hSR]
  have hsubmem : ∀ x, (x ∈ SL ∨ x ∈ SR) →
      x ∈ subtreePKeys st.partitions (rootLevel st) RootKey := by
    intro x hx
    have hxm : x ∈ (subtreePKeys st.partitions (rootLevel st) RootKey
        : Multiset PartitionKey) := by
      rw [hEq]
      refine Multiset.mem_cons_of_mem ?_
      rw [Multiset.mem_add]
      rcases hx with hx | hx
      · exact Or.inl (Multiset.mem_coe.mpr hx)
      · exact Or.inr (Multiset.mem_coe.mpr hx)
    exact Multiset.mem_coe.mp hxm
  have holdmem : ∀ x, x ∈ subtreePKeys st.partitions (rootLevel st) RootKey ↔
      (x = RootKey ∨ x ∈ SL ∨ x ∈ SR) := by
    intro x
    constructor
    · intro hx
      have hxm : x ∈ (subtreePKeys st.partitions (rootLevel st) RootKey
          : Multiset PartitionKey) := Multiset.mem_coe.mpr hx
      rw [hEq, Multiset.mem_cons, Multiset.mem_add] at hxm
      rcases hxm with hxm | hxm | hxm
      · exact Or.inl hxm
      · exact Or.inr (Or.inl (Multiset.mem_coe.mp hxm))
      · exact Or.inr (Or.inr (Multiset.mem_coe.mp hxm))
    · intro hx
      rcases hx with hx | hx
      · rw [hx]
        exact self_mem_subtreePKeys _ _ _
      · exact hsubmem x hx
  have hndSLSR : ((SL : Multiset PartitionKey) + (SR : Multiset PartitionKey)).Nodup
      ∧ RootKey ∉ (SL : Multiset PartitionKey) + (SR : Multiset PartitionKey) := by
    have hndm : (subtreePKeys st.partitions (rootLevel st) RootKey
        : Multiset PartitionKey).Nodup := Multiset.coe_nodup.mpr h.nodupTree
    rw [hEq, Multiset.nodup_cons] at hndm
    exact ⟨hndm.2, hndm.1⟩
  constructor
  · refine ⟨?_, ?_, ?_, ?_, ?_, ?_⟩
    · rw [hrl2]
      refine ⟨newRoot st.nextKey (st.nextKey + 1) root, hlookRoot, by rw [hrl]; rfl, ?_, ?_⟩
      · intro hc
        cases hc
      · intro ck hck
        rcases List.mem_cons.mp hck with hck | hck
        · exact ⟨st.nextKey, hck, hwfL⟩
        · rcases List.mem_cons.mp hck with hck | hck
          · exact ⟨st.nextKey + 1, hck, hwfR⟩
          · exact absurd hck (List.not_mem_nil ck)
    · rw [hrl2, hNew]
      refine List.nodup_cons.mpr ⟨?_, ?_⟩
      · intro hc
        simp only [List.mem_append, List.mem_cons, List.append_nil] at hc
        rcases hc with (hc | hc) | (hc | hc)
        · exact hRnL hc
        · exact hndSLSR.2 (Multiset.mem_add.mpr (Or.inl (Multiset.mem_coe.mpr hc)))
        · exact hRnR hc
        · exact hndSLSR.2 (Multiset.mem_add.mpr (Or.inr (Multiset.mem_coe.mpr hc)))
      · rw [← Multiset.coe_nodup]
        simp only [List.append_nil, ← Multiset.cons_coe, ← Multiset.coe_add]
        simp only [Multiset.cons_add, Multiset.add_cons]
        rw [Multiset.nodup_cons, Multiset.nodup_cons]
        refine ⟨?_, ?_, hndSLSR.1⟩
        · rw [Multiset.mem_cons, Multiset.mem_add]
          rintro (hc | hc | hc)
          · exact Nat.succ_ne_self _ hc
          · exact absurd (hsubfresh _ (hsubmem _ (Or.inl (Multiset.mem_coe.mp hc))))
              (Nat.lt_asymm (Nat.lt_succ_self _))
          · exact absurd (hsubfresh _ (hsubmem _ (Or.inr (Multiset.mem_coe.mp hc))))
              (Nat.lt_asymm (Nat.lt_succ_self _))
        · rw [Multiset.mem_add]
          rintro (hc | hc)
          · exact absurd (hsubfresh _ (hsubmem _ (Or.inl (Multiset.mem_coe.mp hc))))
              (Nat.lt_irrefl _)
          · exact absurd (hsubfresh _ (hsubmem _ (Or.inr (Multiset.mem_coe.mp hc))))
              (Nat.lt_irrefl _)
    · rw [hrl2, hNew]
      intro q hq
      show q < st.nextKey + 2
      simp only [List.mem_cons, List.mem_append, List.append_nil] at hq
      rcases hq with hq | (hq | hq) | (hq | hq)
      · subst hq
        exact Nat.lt_succ_of_lt (Nat.lt_succ_of_lt hRfresh)
      · subst hq
        exact Nat.lt_succ_of_lt (Nat.lt_succ_self _)
      · exact Nat.lt_succ_of_lt
          (Nat.lt_succ_of_lt (hsubfresh q (hsubmem q (Or.inl hq))))
      · subst hq
        exact Nat.lt_succ_self _
      · exact Nat.lt_succ_of_lt
          (Nat.lt_succ_of_lt (hsubfresh q (hsubmem q (Or.inr hq))))
    · intro q
      have hdom2 : domP (applyRootSplit st root).partitions
          = st.nextKey :: (st.nextKey + 1) :: domP st.partitions := by
        show domP ((st.nextKey, splitLeft st root) :: (st.nextKey + 1, splitRight st root)
          :: setP st.partitions RootKey (newRoot st.nextKey (st.nextKey + 1) root))
          = st.nextKey :: (st.nextKey + 1) :: domP st.partitions
        unfold domP
        simp only [List.map_cons]
        exact congrArg (fun xs => st.nextKey :: (st.nextKey + 1) :: xs)
          (domP_setP st.partitions RootKey _)
      rw [← mem_domP_iff, hdom2, hrl2, hNew]
      constructor
      · intro hq
        rcases List.mem_cons.mp hq with hq | hq
        · subst hq
          simp
        · rcases List.mem_cons.mp hq with hq | hq
          · subst hq
            simp
          · have hold : q ∈ subtreePKeys st.partitions (rootLevel st) RootKey :=
              (h.dom q).mp ((mem_domP_iff _ _).mp hq)
            rcases (holdmem q).mp hold with hc | hc | hc
            · subst hc
              simp
            · simp only [List.mem_cons, List.mem_append, List.append_nil]
              exact Or.inr (Or.inl (Or.inr hc))
            · simp only [List.mem_cons, List.mem_append, List.append_nil]
              exact Or.inr (Or.inr (Or.inr hc))
      · intro hq
        simp only [List.mem_cons, List.mem_append, List.append_nil] at hq
        rcases hq with hq | (hq | hq) | (hq | hq)
        · subst hq
          refine List.mem_cons_of_mem _ (List.mem_cons_of_mem _ ?_)
          exact (mem_domP_iff _ _).mpr
            ((h.dom RootKey).mpr (self_mem_subtreePKeys _ _ _))
        · subst hq
          exact List.mem_cons_self _ _
        · refine List.mem_cons_of_mem _ (List.mem_cons_of_mem _ ?_)
          exact (mem_domP_iff _ _).mpr ((h.dom q).mpr (hsubmem q (Or.inl hq)))
        · subst hq
          exact List.mem_cons_of_mem _ (List.mem_cons_self _ _)
        · refine List.mem_cons_of_mem _ (List.mem_cons_of_mem _ ?_)
          exact (mem_domP_iff _ _).mpr ((h.dom q).mpr (hsubmem q (Or.inr hq)))
    · have hdom2 : domP (applyRootSplit st root).partitions
          = st.nextKey :: (st.nextKey + 1) :: domP st.partitions := by
        show domP ((st.nextKey, splitLeft st root) :: (st.nextKey + 1, splitRight st root)
          :: setP st.partitions RootKey (newRoot st.nextKey (st.nextKey + 1) root))
          = st.nextKey :: (st.nextKey + 1) :: domP st.partitions
        unfold domP
        simp only [List.map_cons]
        exact congrArg (fun xs => st.nextKey :: (st.nextKey + 1) :: xs)
          (domP_setP st.partitions RootKey _)
      rw [hdom2]
      refine List.nodup_cons.mpr ⟨?_, List.nodup_cons.mpr ⟨?_, h.nodupStore⟩⟩
      · intro hc
        rcases List.mem_cons.mp hc with hc | hc
        · exact Nat.succ_ne_self _ hc.symm
        · exact Nat.lt_irrefl _ (hsubfresh _ ((h.dom _).mp ((mem_domP_iff _ _).mp hc)))
      · intro hc
        exact Nat.lt_asymm (Nat.lt_succ_self _)
          (hsubfresh _ ((h.dom _).mp ((mem_domP_iff _ _).mp hc)))
    · exact h.maxPos
  · unfold leafKeys
    rw [hrl2]
    show subtreeLeafKeys (applyRootSplit st root).partitions (rootLevel st + 1) RootKey
      = subtreeLeafKeys st.partitions (rootLevel st) RootKey
    simp only [subtreeLeafKeys, hlookRoot, Option.map_some', Option.getD_some]
    rw [hpartsNR]
    simp only [List.flatMap_cons, List.flatMap_nil, List.append_nil]
    exact hleafLR

/-! ### Non-root split preserves the invariants and the leaf keys -/

theorem lookupP_setP_none :
    ∀ (ps : PartitionList) (pk : PartitionKey) (p : Partition) {q : PartitionKey},
      lookupP ps q = none → lookupP (setP ps pk p) q = none
  | [], _, _, _, _ => rfl
  | e :: rest, pk, p, q, h => by
    simp only [lookupP] at h
    by_cases heq : e.1 = q
    · rw [if_pos heq] at h
      exact Option.noConfusion h
    · rw [if_neg heq] at h
      simp only [setP]
      by_cases hep : e.1 = pk
      · rw [if_pos hep]
        simp only [lookupP]
        rw [if_neg (fun hc : pk = q => heq (hep.trans hc))]
        exact h
      · rw [if_neg hep]
        simp only [lookupP, if_neg heq]
        exact lookupP_setP_none rest pk p h

theorem lookupP_splitStore_pk (ps : PartitionList) (parentPk pk nL nR : PartitionKey)
    (parent target : Partition) (cL cR : Vec)
    (h1 : pk ≠ nL) (h2 : pk ≠ nR) (hnd : (domP ps).Nodup) :
    lookupP (splitStore ps parentPk pk nL nR parent target cL cR) pk = none := by
  simp only [splitStore, lookupP, if_neg (fun hc : nL = pk => h1 hc.symm),
    if_neg (fun hc : nR = pk => h2 hc.symm)]
  exact lookupP_setP_none _ _ _ (lookupP_eraseP_self ps pk hnd)

theorem mkSplitState_spec (st : TreeState) (parentPk pk : PartitionKey)
    (parent target : Partition) (h : Inv st)
    (hpar : lookupP st.partitions parentPk = some parent)
    (htgt : lookupP st.partitions pk = some target)
    (hchild : ChildKey.partitionKey pk ∈ parent.childKeys)
    (hpkR : pk ≠ RootKey)
    (hover : st.maxPartitionSize < target.childKeys.length) :
    Inv (mkSplitState st parentPk pk parent target) ∧
      leafKeys (mkSplitState st parentPk pk parent target) = leafKeys st := by
  have hps : (mkSplitState st parentPk pk parent target).partitions
      = splitStore st.partitions parentPk pk st.nextKey (st.nextKey + 1) parent target
        (centroidOf st (splitChildren target.childKeys).1)
        (centroidOf st (splitChildren target.childKeys).2) := rfl
  have hparentMem : parentPk ∈ subtreePKeys st.partitions (rootLevel st) RootKey :=
    (h.dom parentPk).mp (by rw [hpar]; rfl)
  have hpkMem : pk ∈ subtreePKeys st.partitions (rootLevel st) RootKey :=
    (h.dom pk).mp (by rw [htgt]; rfl)
  have hnLs : st.nextKey ∉ subtreePKeys st.partitions (rootLevel st) RootKey := fun hc =>
    Nat.lt_irrefl _ (h.freshTree _ hc)
  have hnRs : st.nextKey + 1 ∉ subtreePKeys st.partitions (rootLevel st) RootKey := fun hc =>
    Nat.lt_asymm (Nat.lt_succ_self _) (h.freshTree _ hc)
  have hnLR : st.nextKey ≠ st.nextKey + 1 := Nat.ne_of_lt (Nat.lt_succ_self _)
  have hsz : 2 ≤ target.childKeys.length := by
    have h1 := h.maxPos
    omega
  have hpklt : pk < st.nextKey := h.freshTree pk hpkMem
  have hpknL : pk ≠ st.nextKey := Nat.ne_of_lt hpklt
  have hpknR : pk ≠ st.nextKey + 1 := Nat.ne_of_lt (Nat.lt_succ_of_lt hpklt)
  have hparlt : parentPk < st.nextKey := h.freshTree parentPk hparentMem
  have hparnL : parentPk ≠ st.nextKey := Nat.ne_of_lt hparlt
  have hparnR : parentPk ≠ st.nextKey + 1 := Nat.ne_of_lt (Nat.lt_succ_of_lt hparlt)
  have hRlt : RootKey < st.nextKey := h.freshTree RootKey (self_mem_subtreePKeys _ _ _)
  have hRnL : RootKey ≠ st.nextKey := Nat.ne_of_lt hRlt
  have hRnR : RootKey ≠ st.nextKey + 1 := Nat.ne_of_lt (Nat.lt_succ_of_lt hRlt)
  have hRpk : RootKey ≠ pk := fun hc => hpkR hc.symm
  obtain ⟨rest, hOld, hNewM, hLeafEq, hWfNew⟩ :=
    split_update st.partitions st.vectors parentPk pk st.nextKey (st.nextKey + 1)
      parent target (centroidOf st (splitChildren target.childKeys).1)
      (centroidOf st (splitChildren target.childKeys).2)
      hpar htgt hchild hsz hnLR (rootLevel st) RootKey h.wf h.nodupTree
      hparentMem hnLs hnRs
  have hOldNd : (pk ::ₘ rest).Nodup := by
    rw [← hOld]
    exact Multiset.coe_nodup.mpr h.nodupTree
  have hpkrest : pk ∉ rest := (Multiset.nodup_cons.mp hOldNd).1
  have hrestNd : rest.Nodup := (Multiset.nodup_cons.mp hOldNd).2
  have hrest_lt : ∀ q ∈ rest, q < st.nextKey := by
    intro q hqr
    refine h.freshTree q ?_
    rw [← Multiset.mem_coe, hOld]
    exact Multiset.mem_cons_of_mem hqr
  have hmemNew : ∀ x, x ∈ subtreePKeys
      (splitStore st.partitions parentPk pk st.nextKey (st.nextKey + 1) parent target
        (centroidOf st (splitChildren target.childKeys).1)
        (centroidOf st (splitChildren target.childKeys).2)) (rootLevel st) RootKey ↔
      (x = st.nextKey ∨ x = st.nextKey + 1 ∨ x ∈ rest) := by
    intro x
    rw [← Multiset.mem_coe, hNewM, Multiset.mem_cons, Multiset.mem_cons]
  have hmemOld : ∀ x, x ∈ subtreePKeys st.partitions (rootLevel st) RootKey ↔
      (x = pk ∨ x ∈ rest) := by
    intro x
    rw [← Multiset.mem_coe, hOld, Multiset.mem_cons]
  have hrl2 : rootLevel (mkSplitState st parentPk pk parent target) = rootLevel st := by
    unfold rootLevel getP
    rw [hps]
    by_cases hpp : parentPk = RootKey
    · subst hpp
      rw [lookupP_splitStore_parent st.partitions RootKey pk st.nextKey (st.nextKey + 1)
        parent target _ _ hparnL hparnR hRpk hpar]
      rw [hpar]
      rfl
    · rw [lookupP_splitStore_ne st.partitions parentPk pk st.nextKey (st.nextKey + 1)
        parent target _ _ hRnL hRnR (fun hc => hpp hc.symm) hRpk]
  constructor
  · refine ⟨?_, ?_, ?_, ?_, ?_, ?_⟩
    · rw [hrl2]
      exact hWfNew
    · rw [hrl2, hps, ← Multiset.coe_nodup, hNewM]
      refine Multiset.nodup_cons.mpr ⟨?_, Multiset.nodup_cons.mpr ⟨?_, hrestNd⟩⟩
      · rw [Multiset.mem_cons]
        rintro (hc | hc)
        · exact hnLR hc
        · exact Nat.lt_irrefl _ (hrest_lt _ hc)
      · intro hc
        exact Nat.lt_asymm (Nat.lt_succ_self _) (hrest_lt _ hc)
    · rw [hrl2, hps]
      intro q hq
      show q < st.nextKey + 2
      have hq2 : q ∈ (st.nextKey ::ₘ (st.nextKey + 1) ::ₘ rest) := by
        rw [← hNewM]
        exact Multiset.mem_coe.mpr hq
      rcases Multiset.mem_cons.mp hq2 with hc | hc
      · subst hc
        exact Nat.lt_succ_of_lt (Nat.lt_succ_self _)
      · rcases Multiset.mem_cons.mp hc with hc2 | hc2
        · subst hc2
          exact Nat.lt_succ_self _
        · exact Nat.lt_succ_of_lt (Nat.lt_succ_of_lt (hrest_lt q hc2))
    · intro q
      rw [hrl2, hps, hmemNew q]
      by_cases h1 : q = st.nextKey
      · subst h1
        rw [lookupP_splitStore_nL]
        simp
      · by_cases h2 : q = st.nextKey + 1
        · subst h2
          rw [lookupP_splitStore_nR st.partitions parentPk pk st.nextKey (st.nextKey + 1)
            parent target _ _ hnLR]
          simp
        · by_cases h3 : q = pk
          · subst h3
            rw [lookupP_splitStore_pk st.partitions parentPk q st.nextKey (st.nextKey + 1)
              parent target _ _ hpknL hpknR h.nodupStore]
            constructor
            · intro hc
              exact absurd hc (by simp)
            · rintro (hc | hc | hc)
              · exact absurd hc hpknL
              · exact absurd hc hpknR
              · exact absurd hc hpkrest
          · by_cases h4 : q = parentPk
            · subst h4
              rw [lookupP_splitStore_parent st.partitions q pk st.nextKey (st.nextKey + 1)
                parent target _ _ hparnL hparnR h3 hpar]
              constructor
              · intro _
                refine Or.inr (Or.inr ?_)
                rcases (hmemOld q).mp hparentMem with hc | hc
                · exact absurd hc h3
                · exact hc
              · intro _
                rfl
            · rw [lookupP_splitStore_ne st.partitions parentPk pk st.nextKey (st.nextKey + 1)
                parent target _ _ h1 h2 h4 h3]
              rw [h.dom q, hmemOld q]
              constructor
              · rintro (hc | hc)
                · exact absurd hc h3
                · exact Or.inr (Or.inr hc)
              · rintro (hc | hc | hc)
                · exact absurd hc h1
                · exact absurd hc h2
                · exact Or.inr hc
    · rw [hps]
      have hdomEq : domP (splitStore st.partitions parentPk pk st.nextKey (st.nextKey + 1)
          parent target (centroidOf st (splitChildren target.childKeys).1)
          (centroidOf st (splitChildren target.childKeys).2))
          = st.nextKey :: (st.nextKey + 1) :: domP (eraseP st.partitions pk) := by
        show st.nextKey :: (st.nextKey + 1) ::
            domP (setP (eraseP st.partitions pk) parentPk
              (splitParent pk st.nextKey (st.nextKey + 1) parent))
          = st.nextKey :: (st.nextKey + 1) :: domP (eraseP st.partitions pk)
        exact congrArg (fun xs => st.nextKey :: (st.nextKey + 1) :: xs) (domP_setP _ _ _)
      rw [hdomEq]
      have hsubD : ∀ x ∈ domP (eraseP st.partitions pk), x < st.nextKey := by
        intro x hx
        have hx2 : x ∈ domP st.partitions :=
          ((eraseP_sublist st.partitions pk).map Prod.fst).subset hx
        exact h.freshTree x ((h.dom x).mp ((mem_domP_iff _ _).mp hx2))
      refine List.nodup_cons.mpr ⟨?_, List.nodup_cons.mpr
        ⟨?_, domP_eraseP_nodup _ _ h.nodupStore⟩⟩
      · intro hc
        rcases List.mem_cons.mp hc with hc | hc
        · exact Nat.succ_ne_self _ hc.symm
        · exact Nat.lt_irrefl _ (hsubD _ hc)
      · intro hc
        exact Nat.lt_asymm (Nat.lt_succ_self _) (hsubD _ hc)
    · exact h.maxPos
  · unfold leafKeys
    rw [hrl2, hps]
    exact hLeafEq

theorem applySplit_spec (st : TreeState) (parentPk pk : PartitionKey)
    (parent target : Partition) (h : Inv st)
    (hpar : lookupP st.partitions parentPk = some parent)
    (htgt : lookupP st.partitions pk = some target)
    (hchild : ChildKey.partitionKey pk ∈ parent.childKeys)
    (hpkR : pk ≠ RootKey)
    (hover : st.maxPartitionSize < target.childKeys.length) :
    Inv (applySplit st parentPk pk parent target) ∧
      leafKeys (applySplit st parentPk pk parent target) = leafKeys st := by
  obtain ⟨hi, hlk⟩ := mkSplitState_spec st parentPk pk parent target h hpar htgt hchild hpkR hover
  unfold applySplit
  split
  · exact ⟨Inv_of_components hi (enqueueFixup_components _ _).1
      (enqueueFixup_components _ _).2.1 (enqueueFixup_components _ _).2.2.1
      (enqueueFixup_components _ _).2.2.2,
      (leafKeys_congr (enqueueFixup_components _ _).1).trans hlk⟩
  · exact ⟨hi, hlk⟩

/-! ### One fixup-processing step preserves the invariants and the leaf keys -/

theorem processOneFixup_spec (st : TreeState) (h : Inv st) :
    Inv (processOneFixup st) ∧ leafKeys (processOneFixup st) = leafKeys st := by
  cases hq : st.fixupQueue with
  | nil =>
    have hpe : processOneFixup st = st := by
      unfold processOneFixup
      rw [hq]
    rw [hpe]
    exact ⟨h, rfl⟩
  | cons pk rest =>
    have h0 : Inv { st with fixupQueue := rest } := Inv_of_components h rfl rfl rfl rfl
    have hl0 : leafKeys { st with fixupQueue := rest } = leafKeys st := leafKeys_congr rfl
    unfold processOneFixup
    rw [hq]
    dsimp only
    split
    · -- the popped entry is the root
      split
      · exact ⟨h0, hl0⟩
      · rename_i root hg
        split
        · rename_i hov
          obtain ⟨hi, hlk⟩ := applyRootSplit_spec { st with fixupQueue := rest } root h0 hg hov
          exact ⟨hi, hlk.trans hl0⟩
        · exact ⟨h0, hl0⟩
    · -- a non-root entry
      rename_i hpk
      split
      · rename_i parentPk target hfp hgp
        split
        · exact ⟨h0, hl0⟩
        · rename_i parent hgpar
          split
          · rename_i hov
            obtain ⟨pp, hppmem, hppchild⟩ := findParentIn_spec st.partitions pk parentPk hfp
            have hpplook : lookupP st.partitions parentPk = some pp :=
              mem_lookupP _ _ _ h.nodupStore hppmem
            have hpe : pp = parent := Option.some.inj (hpplook.symm.trans hgpar)
            obtain ⟨hi, hlk⟩ := applySplit_spec { st with fixupQueue := rest } parentPk pk
              parent target h0 hgpar hgp (hpe ▸ hppchild) hpk hov
            exact ⟨hi, hlk.trans hl0⟩
          · exact ⟨h0, hl0⟩
      · exact ⟨h0, hl0⟩

/-! ### The `validateIndex` traversal on a well-formed tree -/

theorem map_flatMap_eq {α β γ : Type} (l : List α) (f : α → List β) (g : β → γ) :
    (l.flatMap f).map g = l.flatMap fun a => (f a).map g := by
  induction l with
  | nil => rfl
  | cons a l ih => simp only [List.flatMap_cons, List.map_append, ih]

theorem filterMap_flatMap_eq {α β γ : Type} (l : List α) (f : α → List β) (g : β → Option γ) :
    (l.flatMap f).filterMap g = l.flatMap fun a => (f a).filterMap g := by
  induction l with
  | nil => rfl
  | cons a l ih => simp only [List.flatMap_cons, List.filterMap_append, ih]

theorem flatMap_flatMap_eq {α β γ : Type} (l : List α) (f : α → List β) (g : β → List γ) :
    (l.flatMap f).flatMap g = l.flatMap fun a => (f a).flatMap g := by
  induction l with
  | nil => rfl
  | cons a l ih => simp only [List.flatMap_cons, List.flatMap_append, ih]

theorem childKeys_all_primary : ∀ {cks : List ChildKey},
    (∀ ck ∈ cks, ∃ k, ck = ChildKey.primaryKey k) →
    cks = (cks.filterMap primOf).map ChildKey.primaryKey
  | [], _ => rfl
  | ck :: cks, h => by
    obtain ⟨k, hk⟩ := h ck (List.mem_cons_self _ _)
    subst hk
    have ih := childKeys_all_primary (fun c hc => h c (List.mem_cons_of_mem _ hc))
    simp only [List.filterMap_cons, primOf, List.map_cons]
    exact congrArg (fun xs => ChildKey.primaryKey k :: xs) ih

theorem levelChildKeys_eq (st : TreeState) : ∀ (pks : List PartitionKey),
    (∀ pk ∈ pks, (getP st pk).isSome = true) →
    levelChildKeys st pks
      = some (pks.flatMap fun pk => ((getP st pk).map Partition.childKeys).getD [])
  | [], _ => rfl
  | pk :: pks, h => by
    cases hg : getP st pk with
    | none =>
      have hs := h pk (List.mem_cons_self _ _)
      rw [hg] at hs
      exact absurd hs (by simp)
    | some p =>
      have ih := levelChildKeys_eq st pks (fun q hq => h q (List.mem_cons_of_mem _ hq))
      simp only [levelChildKeys, hg, ih, List.flatMap_cons, Option.map_some', Option.getD_some]

theorem traverseLoop_wf : ∀ (l : ℕ) (st : TreeState) (fuel : ℕ) (pks : List PartitionKey),
    l + 2 ≤ fuel → pks ≠ [] →
    (∀ pk ∈ pks, wfAt st.partitions st.vectors l pk) →
    traverseLoop st fuel pks
      = some ((pks.flatMap (subtreeLeafKeys st.partitions l)).map ChildKey.primaryKey)
  | l, st, 0, pks, hfuel, _, _ => absurd hfuel (by omega)
  | 0, st, fuel+1, pks, _, _, hwf => by
    have hget : ∀ pk ∈ pks, (getP st pk).isSome = true := by
      intro pk hpk
      obtain ⟨p, hp, _⟩ := wfAt_lookup (hwf pk hpk)
      rw [show getP st pk = some p from hp]
      rfl
    have hLK := levelChildKeys_eq st pks hget
    have hcks : (pks.flatMap fun pk => ((getP st pk).map Partition.childKeys).getD [])
        = (pks.flatMap (subtreeLeafKeys st.partitions 0)).map ChildKey.primaryKey := by
      rw [map_flatMap_eq]
      refine flatMap_congr ?_
      intro pk hpk
      obtain ⟨p, hp, _, hch⟩ := hwf pk hpk
      rw [show getP st pk = some p from hp]
      simp only [Option.map_some', Option.getD_some, subtreeLeafKeys, hp]
      show p.childKeys = p.primChildren.map ChildKey.primaryKey
      exact childKeys_all_primary (fun ck hck => by
        obtain ⟨k, hk, _⟩ := hch ck hck
        exact ⟨k, hk⟩)
    simp only [traverseLoop, hLK, hcks]
    by_cases hemp : ((pks.flatMap (subtreeLeafKeys st.partitions 0)).map
        ChildKey.primaryKey).isEmpty = true
    · rw [if_pos hemp]
      rw [List.isEmpty_iff] at hemp
      rw [hemp]
    · rw [if_neg hemp]
      have hres : ∀ ck ∈ (pks.flatMap (subtreeLeafKeys st.partitions 0)).map
          ChildKey.primaryKey, (getFullVector st ck).isSome = true := by
        intro ck hck
        obtain ⟨k, hkmem, hkck⟩ := List.mem_map.mp hck
        obtain ⟨pk, hpk, hkin⟩ := List.mem_flatMap.mp hkmem
        obtain ⟨p, hp, _, hch⟩ := hwf pk hpk
        simp only [subtreeLeafKeys, hp, Option.map_some', Option.getD_some] at hkin
        obtain ⟨ck2, hck2, hck2p⟩ := List.mem_filterMap.mp hkin
        obtain ⟨k2, hk2, hv2⟩ := hch ck2 hck2
        subst hk2
        have hkk : k2 = k := by
          simp only [primOf] at hck2p
          exact Option.some.inj hck2p
        subst hkk
        rw [← hkck]
        exact hv2
      rw [if_pos (List.all_eq_true.mpr hres)]
      rw [List.isEmpty_iff] at hemp
      cases hmk : (pks.flatMap (subtreeLeafKeys st.partitions 0)).map ChildKey.primaryKey with
      | nil => exact absurd hmk hemp
      | cons c0 cs =>
        obtain ⟨k0, _, hk0⟩ := List.mem_map.mp (hmk ▸ List.mem_cons_self c0 cs)
        rw [← hk0]
        rfl
  | m+1, st, fuel+1, pks, hfuel, hne, hwf => by
    have hget : ∀ pk ∈ pks, (getP st pk).isSome = true := by
      intro pk hpk
      obtain ⟨p, hp, _⟩ := wfAt_lookup (hwf pk hpk)
      rw [show getP st pk = some p from hp]
      rfl
    have hLK := levelChildKeys_eq st pks hget
    have hckmem : ∀ ck ∈ (pks.flatMap fun pk =>
        ((getP st pk).map Partition.childKeys).getD []),
        ∃ c, ck = ChildKey.partitionKey c ∧ wfAt st.partitions st.vectors m c := by
      intro ck hck
      obtain ⟨pk, hpk, hckin⟩ := List.mem_flatMap.mp hck
      obtain ⟨p, hp, _, _, hch⟩ := hwf pk hpk
      rw [show getP st pk = some p from hp] at hckin
      simp only [Option.map_some', Option.getD_some] at hckin
      exact hch ck hckin
    have hcne : (pks.flatMap fun pk =>
        ((getP st pk).map Partition.childKeys).getD []) ≠ [] := by
      cases pks with
      | nil => exact absurd rfl hne
      | cons pk0 pks =>
        obtain ⟨p0, hp0, _, hne0, _⟩ := hwf pk0 (List.mem_cons_self _ _)
        simp only [List.flatMap_cons, show getP st pk0 = some p0 from hp0,
          Option.map_some', Option.getD_some]
        intro hc
        exact hne0 (List.append_eq_nil.mp hc).1
    simp only [traverseLoop, hLK]
    rw [if_neg (by
      intro hc
      rw [List.isEmpty_iff] at hc
      exact hcne hc)]
    rw [if_pos (List.all_eq_true.mpr (by
      intro ck hck
      obtain ⟨c, hc, hwfc⟩ := hckmem ck hck
      obtain ⟨q, hq, _⟩ := wfAt_lookup hwfc
      subst hc
      show ((getP st c).map Partition.centroid).isSome = true
      rw [show getP st c = some q from hq]
      rfl))]
    cases hmk : (pks.flatMap fun pk =>
        ((getP st pk).map Partition.childKeys).getD []) with
    | nil => exact absurd hmk hcne
    | cons ck0 cks0 =>
      obtain ⟨c0, hc0, _⟩ := hckmem ck0 (hmk ▸ List.mem_cons_self ck0 cks0)
      subst hc0
      have hrec := traverseLoop_wf m st fuel
        ((ChildKey.partitionKey c0 :: cks0).filterMap partOf)
        (by omega)
        (by
          rw [List.filterMap_cons]
          simp only [partOf]
          intro hc
          exact List.noConfusion hc)
        (by
          intro c hcmem
          obtain ⟨ck, hckmem2, hckp⟩ := List.mem_filterMap.mp hcmem
          have hckin : ck ∈ (pks.flatMap fun pk =>
              ((getP st pk).map Partition.childKeys).getD []) := by
            rw [hmk]
            exact hckmem2
          obtain ⟨c2, hc2, hwfc2⟩ := hckmem ck hckin
          subst hc2
          have hcc : c2 = c := by
            simp only [partOf] at hckp
            exact Option.some.inj hckp
          subst hcc
          exact hwfc2)
      show traverseLoop st fuel ((ChildKey.partitionKey c0 :: cks0).filterMap partOf)
        = some (List.map ChildKey.primaryKey
            (pks.flatMap (subtreeLeafKeys st.partitions (m+1))))
      rw [hrec]
      have hflat : ((ChildKey.partitionKey c0 :: cks0).filterMap partOf).flatMap
          (subtreeLeafKeys st.partitions m)
          = pks.flatMap (subtreeLeafKeys st.partitions (m+1)) := by
        rw [← hmk, filterMap_flatMap_eq, flatMap_flatMap_eq]
        refine (flatMap_congr ?_).symm
        intro pk hpk
        obtain ⟨p, hp, _, _, _⟩ := hwf pk hpk
        simp only [subtreeLeafKeys, hp, Option.map_some', Option.getD_some,
          show getP st pk = some p from hp]
        rfl
      rw [hflat]

theorem traverseFromRoot_wf (st : TreeState) (h : Inv st) :
    traverseFromRoot st = some ((leafKeys st).map ChildKey.primaryKey) := by
  unfold traverseFromRoot
  rw [traverseLoop_wf (rootLevel st) st (rootLevel st + 2) [RootKey] (le_refl _)
    (by intro hc; exact List.noConfusion hc)
    (by
      intro pk hpk
      rcases List.mem_singleton.mp hpk with rfl
      exact h.wf)]
  unfold leafKeys
  rw [List.flatMap_cons, List.flatMap_nil, List.append_nil]

/-! ### Depth-indexed reachability: every reachable child reference resolves -/

theorem depthKeys_wf (st : TreeState) (h : Inv st) :
    ∀ d, ∀ pk ∈ depthKeys st d, ∃ l, l + d = rootLevel st ∧
      wfAt st.partitions st.vectors l pk
  | 0, pk, hpk => by
    rcases List.mem_singleton.mp hpk with rfl
    exact ⟨rootLevel st, rfl, h.wf⟩
  | d+1, pk, hpk => by
    obtain ⟨q, hq, hpkin⟩ := List.mem_flatMap.mp hpk
    obtain ⟨l, hl, hwf⟩ := depthKeys_wf st h d q hq
    cases l with
    | zero =>
      obtain ⟨p, hp, _, hch⟩ := hwf
      rw [show getP st q = some p from hp] at hpkin
      simp only [Option.map_some', Option.getD_some] at hpkin
      obtain ⟨ck, hckmem, hckp⟩ := List.mem_filterMap.mp hpkin
      obtain ⟨k, hk, _⟩ := hch ck hckmem
      subst hk
      simp only [partOf] at hckp
      exact Option.noConfusion hckp
    | succ m =>
      obtain ⟨p, hp, _, _, hch⟩ := hwf
      rw [show getP st q = some p from hp] at hpkin
      simp only [Option.map_some', Option.getD_some] at hpkin
      obtain ⟨ck, hckmem, hckp⟩ := List.mem_filterMap.mp hpkin
      obtain ⟨c, hc, hwfc⟩ := hch ck hckmem
      subst hc
      simp only [partOf] at hckp
      have hcc : c = pk := Option.some.inj hckp
      subst hcc
      exact ⟨m, by omega, hwfc⟩

theorem Inv_child_refs_resolve (st : TreeState) (h : Inv st) :
    ∀ d, ∀ ck ∈ depthChildKeys st d, (getFullVector st ck).isSome = true := by
  intro d ck hck
  obtain ⟨pk, hpk, hckin⟩ := List.mem_flatMap.mp hck
  obtain ⟨l, _, hwf⟩ := depthKeys_wf st h d pk hpk
  cases l with
  | zero =>
    obtain ⟨p, hp, _, hch⟩ := hwf
    rw [show getP st pk = some p from hp] at hckin
    simp only [Option.map_some', Option.getD_some] at hckin
    obtain ⟨k, hk, hv⟩ := hch ck hckin
    subst hk
    exact hv
  | succ m =>
    obtain ⟨p, hp, _, _, hch⟩ := hwf
    rw [show getP st pk = some p from hp] at hckin
    simp only [Option.map_some', Option.getD_some] at hckin
    obtain ⟨c, hc, hwfc⟩ := hch ck hckin
    obtain ⟨q, hq, _⟩ := wfAt_lookup hwfc
    subst hc
    show ((getP st c).map Partition.centroid).isSome = true
    rw [show getP st c = some q from hq]
    rfl

/-! ### The initial state satisfies the invariants; build traces preserve them -/

theorem initState_Inv (dims minSize maxSize : ℕ) (hmax : 0 < maxSize) :
    Inv (initState dims minSize maxSize) := by
  refine ⟨?_, ?_, ?_, ?_, ?_, hmax⟩
  · exact ⟨{ level := 0, centroid := List.replicate dims 0, childKeys := [] }, rfl, rfl,
      fun ck hck => absurd hck (List.not_mem_nil ck)⟩
  · exact List.nodup_singleton RootKey
  · intro q hq
    rcases List.mem_singleton.mp hq with rfl
    exact Nat.lt_succ_self _
  · intro q
    show (lookupP [(RootKey, _)] q).isSome = true ↔ q ∈ [RootKey]
    simp only [lookupP]
    by_cases hq : RootKey = q
    · rw [if_pos hq]
      simp [hq.symm]
    · rw [if_neg hq]
      constructor
      · intro hc
        exact absurd hc (by simp)
      · intro hc
        exact absurd (List.mem_singleton.mp hc).symm hq
  · exact List.nodup_singleton RootKey

theorem runOps_spec : ∀ (ops : List IndexOp) (st : TreeState), Inv st →
    ∃ st2, runOps st ops = some st2 ∧ Inv st2 ∧
      (leafKeys st2).Perm (insertedKeys ops ++ leafKeys st)
  | [], st, h => ⟨st, rfl, h, by simp [insertedKeys]⟩
  | IndexOp.insertOp k v :: ops, st, h => by
    obtain ⟨st1, he, h1, hp1⟩ := insertVec_spec st v k h
    obtain ⟨st2, he2, h2, hp2⟩ := runOps_spec ops st1 h1
    refine ⟨st2, ?_, h2, ?_⟩
    · simp only [runOps, execOp, he]
      exact he2
    · show (leafKeys st2).Perm (k :: (insertedKeys ops ++ leafKeys st))
      exact hp2.trans ((List.Perm.append_left _ hp1).trans List.perm_middle)
  | IndexOp.fixupOp :: ops, st, h => by
    obtain ⟨h1, hl1⟩ := processOneFixup_spec st h
    obtain ⟨st2, he2, h2, hp2⟩ := runOps_spec ops (processOneFixup st) h1
    refine ⟨st2, ?_, h2, ?_⟩
    · simp only [runOps, execOp]
      exact he2
    · show (leafKeys st2).Perm (insertedKeys ops ++ leafKeys st)
      rw [← hl1]
      exact hp2

/-! ### Claim C1: no duplication of inserted primary keys -/

/-- **C1**: building an index from the empty initial state by any
interleaving of inserts of distinct primary keys and synchronous
fixup-processing steps (so in particular any trace that ends with the
fixup queue drained) succeeds, and the `validateIndex` level-by-level
traversal from the root reaches the leaf level and returns exactly the
inserted primary keys as its child keys: a permutation of the inserted
keys with no key duplicated (each key lies in exactly one leaf slot), so
the total leaf-key count equals the number of inserted vectors. -/
theorem no_duplication_after_build (dims minSize maxSize : ℕ) (ops : List IndexOp)
    (hmax : 0 < maxSize) (hnd : (insertedKeys ops).Nodup) :
    ∃ st, runOps (initState dims minSize maxSize) ops = some st ∧
      ∃ ks : List PrimaryKey,
        traverseFromRoot st = some (ks.map ChildKey.primaryKey) ∧
        ks.Perm (insertedKeys ops) ∧ ks.Nodup ∧
        ks.length = (insertedKeys ops).length := by
  obtain ⟨st, hrun, hInv, hperm⟩ := runOps_spec ops (initState dims minSize maxSize)
    (initState_Inv dims minSize maxSize hmax)
  have hinit : leafKeys (initState dims minSize maxSize) = [] := rfl
  rw [hinit, List.append_nil] at hperm
  exact ⟨st, hrun, leafKeys st, traverseFromRoot_wf st hInv, hperm,
    hperm.nodup_iff.mpr hnd, hperm.length_eq⟩

/-- Witness for `no_duplication_after_build`: two one-dimensional vectors
inserted (distinct keys) with a fixup step, `MaxPartitionSize = 1`. -/
theorem no_duplication_after_build_witness :
    0 < 1 ∧
    (insertedKeys [IndexOp.insertOp [2] [1], IndexOp.insertOp [3] [2],
      IndexOp.fixupOp]).Nodup ∧
    (∃ st, runOps (initState 1 0 1)
        [IndexOp.insertOp [2] [1], IndexOp.insertOp [3] [2], IndexOp.fixupOp]
        = some st ∧
      ∃ ks : List PrimaryKey,
        traverseFromRoot st = some (ks.map ChildKey.primaryKey) ∧
        ks.Perm (insertedKeys [IndexOp.insertOp [2] [1], IndexOp.insertOp [3] [2],
          IndexOp.fixupOp]) ∧ ks.Nodup ∧
        ks.length = (insertedKeys [IndexOp.insertOp [2] [1], IndexOp.insertOp [3] [2],
          IndexOp.fixupOp]).length) :=
  ⟨by decide, by decide,
    no_duplication_after_build 1 0 1 _ (by decide) (by decide)⟩

/-! ### Claim C7: homogeneous children per partition -/

/-- A partition's children all reference child partitions, or all
reference primary keys — the property `validateIndex` relies on when it
classifies a whole level by its first child key. -/
def homogeneousChildren (p : Partition) : Prop :=
  (∀ ck ∈ p.childKeys, ∃ c, ck = ChildKey.partitionKey c) ∨
  (∀ ck ∈ p.childKeys, ∃ k, ck = ChildKey.primaryKey k)

/-- **C7**: in every state reachable by a build trace, every partition
reachable from the root has homogeneous children — all `ChildKey`s
reference child partitions, or all reference primary keys — and leaf
partitions (level 0) contain only primary-key children, so a traversal may
classify an entire level by inspecting only its first child key. -/
theorem children_homogeneous (dims minSize maxSize : ℕ) (ops : List IndexOp)
    (hmax : 0 < maxSize) :
    ∃ st, runOps (initState dims minSize maxSize) ops = some st ∧
      ∀ d pk, pk ∈ depthKeys st d → ∀ p, getP st pk = some p →
        homogeneousChildren p ∧
        (p.level = 0 → ∀ ck ∈ p.childKeys, ∃ k, ck = ChildKey.primaryKey k) := by
  obtain ⟨st, hrun, hInv, _⟩ := runOps_spec ops (initState dims minSize maxSize)
    (initState_Inv dims minSize maxSize hmax)
  refine ⟨st, hrun, ?_⟩
  intro d pk hpk p hp
  obtain ⟨l, _, hwf⟩ := depthKeys_wf st hInv d pk hpk
  cases l with
  | zero =>
    obtain ⟨p2, hp2, hlv2, hch⟩ := hwf
    have hpe : p2 = p := Option.some.inj ((show getP st pk = some p2 from hp2).symm.trans hp)
    subst hpe
    exact ⟨Or.inr (fun ck hck => (hch ck hck).imp fun k hk => hk.1),
      fun _ ck hck => (hch ck hck).imp fun k hk => hk.1⟩
  | succ m =>
    obtain ⟨p2, hp2, hlv2, _, hch⟩ := hwf
    have hpe : p2 = p := Option.some.inj ((show getP st pk = some p2 from hp2).symm.trans hp)
    subst hpe
    refine ⟨Or.inl (fun ck hck => (hch ck hck).imp fun c hc => hc.1), ?_⟩
    intro hl0
    rw [hlv2] at hl0
    exact absurd hl0 (Nat.succ_ne_zero m)

/-- Witness for `children_homogeneous`: the two-vector build trace. -/
theorem children_homogeneous_witness :
    0 < 1 ∧
    (∃ st, runOps (initState 1 0 1)
        [IndexOp.insertOp [2] [1], IndexOp.insertOp [3] [2], IndexOp.fixupOp]
        = some st ∧
      ∀ d pk, pk ∈ depthKeys st d → ∀ p, getP st pk = some p →
        homogeneousChildren p ∧
        (p.level = 0 → ∀ ck ∈ p.childKeys, ∃ k, ck = ChildKey.primaryKey k)) :=
  ⟨by decide, children_homogeneous 1 0 1
    [IndexOp.insertOp [2] [1], IndexOp.insertOp [3] [2], IndexOp.fixupOp] (by decide)⟩

/-! ### Claim C9: every reachable child reference resolves to a vector -/

/-- **C9**: in every state reachable by a build trace (in particular after
all fixups are drained), every `ChildKey` of every partition reachable
from the root — at every depth, internal partition references and
leaf primary-key references alike — resolves through `GetFullVectors` to a
stored vector: `getFullVector` is `some` on all of them, so the
`require.NotNil` checks of `validateIndex` cannot fail. -/
theorem reachable_child_refs_resolve (dims minSize maxSize : ℕ) (ops : List IndexOp)
    (hmax : 0 < maxSize) :
    ∃ st, runOps (initState dims minSize maxSize) ops = some st ∧
      ∀ d, ∀ ck ∈ depthChildKeys st d, (getFullVector st ck).isSome = true := by
  obtain ⟨st, hrun, hInv, _⟩ := runOps_spec ops (initState dims minSize maxSize)
    (initState_Inv dims minSize maxSize hmax)
  exact ⟨st, hrun, Inv_child_refs_resolve st hInv⟩

/-- Witness for `reachable_child_refs_resolve`: the two-vector build
trace. -/
theorem reachable_child_refs_resolve_witness :
    0 < 1 ∧
    (∃ st, runOps (initState 1 0 1)
        [IndexOp.insertOp [2] [1], IndexOp.insertOp [3] [2], IndexOp.fixupOp]
        = some st ∧
      ∀ d, ∀ ck ∈ depthChildKeys st d, (getFullVector st ck).isSome = true) :=
  ⟨by decide, reachable_child_refs_resolve 1 0 1
    [IndexOp.insertOp [2] [1], IndexOp.insertOp [3] [2], IndexOp.fixupOp] (by decide)⟩

/-! ### Claim C3: soft not-found for Delete and SearchForDelete -/

/-- Modelled from the spec: the scan of the partition store for the leaf
entry whose child list holds a primary key (the index's secondary
structure). -/
def findKeyPartition : PartitionList → PrimaryKey → Option PartitionKey
  | [], _ => none
  | e :: rest, k =>
    if ChildKey.primaryKey k ∈ e.2.childKeys then some e.1 else findKeyPartition rest k

/-- Modelled from the spec: `SearchForDelete` returns the leaf partition
holding the key, and a nil result — `ok none`, not an error — when the key
is absent from the index's secondary structure (the index and the primary
store are only eventually consistent). -/
def searchForDelete (st : TreeState) (k : PrimaryKey) :
    Except String (Option PartitionKey) :=
  Except.ok (findKeyPartition st.partitions k)

/-- Modelled from the spec: `Delete` removes the key from its leaf when
present; an absent key is reported as not-found (`false`) with the state
unchanged, never as an error. -/
def deleteVec (st : TreeState) (k : PrimaryKey) : Except String (Bool × TreeState) :=
  match findKeyPartition st.partitions k with
  | none => Except.ok (false, st)
  | some leafPk => match getP st leafPk with
    | none => Except.ok (false, st)
    | some leaf => Except.ok (true, { st with
        partitions := setP st.partitions leafPk
          { leaf with childKeys := leaf.childKeys.erase (ChildKey.primaryKey k) } })

theorem findKeyPartition_eq_none : ∀ (ps : PartitionList) (k : PrimaryKey),
    (∀ e ∈ ps, ChildKey.primaryKey k ∉ e.2.childKeys) →
    findKeyPartition ps k = none
  | [], _, _ => rfl
  | e :: rest, k, h => by
    simp only [findKeyPartition, if_neg (h e (List.mem_cons_self _ _))]
    exact findKeyPartition_eq_none rest k (fun e2 he2 => h e2 (List.mem_cons_of_mem _ he2))

/-- **C3**: for a key absent from the index's secondary structure (no
stored partition references it), `SearchForDelete` returns a nil result
and `Delete` reports not-found with the index unchanged — both as ordinary
`ok` outcomes, never an error. -/
theorem delete_absent_soft (st : TreeState) (k : PrimaryKey)
    (habs : ∀ e ∈ st.partitions, ChildKey.primaryKey k ∉ e.2.childKeys) :
    searchForDelete st k = Except.ok none ∧
    deleteVec st k = Except.ok (false, st) := by
  have hf := findKeyPartition_eq_none st.partitions k habs
  constructor
  · unfold searchForDelete
    rw [hf]
  · unfold deleteVec
    rw [hf]

/-- Witness for `delete_absent_soft`: key `[7]` is absent from the fresh
one-dimensional index. -/
theorem delete_absent_soft_witness :
    (∀ e ∈ (initState 1 0 2).partitions, ChildKey.primaryKey [7] ∉ e.2.childKeys) ∧
    (searchForDelete (initState 1 0 2) [7] = Except.ok none ∧
      deleteVec (initState 1 0 2) [7] = Except.ok (false, initState 1 0 2)) :=
  ⟨by decide, delete_absent_soft (initState 1 0 2) [7] (by decide)⟩

/-! ### Claims C5 and C6: search determinism and search statistics -/

/-- Modelled from the spec: the `SearchStats` counters of a `SearchSet` —
quantized leaf vectors scanned, quantized vectors scanned, full vectors
fetched, partitions visited. -/
structure SearchStats where
  quantizedLeafVectorCount : ℕ
  quantizedVectorCount : ℕ
  fullVectorCount : ℕ
  partitionCount : ℕ
deriving DecidableEq

/-- Componentwise accumulation of search statistics into a `SearchSet`. -/
def statAdd (a b : SearchStats) : SearchStats :=
  ⟨a.quantizedLeafVectorCount + b.quantizedLeafVectorCount,
   a.quantizedVectorCount + b.quantizedVectorCount,
   a.fullVectorCount + b.fullVectorCount,
   a.partitionCount + b.partitionCount⟩

/-- Modelled from the spec: the root-to-leaf descent path of the search
(beam size 1), choosing at every internal level the child whose centroid
is closest to the query. -/
def collectPath (st : TreeState) (qv : Vec) : ℕ → PartitionKey → Option (List PartitionKey)
  | 0, pk => some [pk]
  | l+1, pk => match getP st pk with
    | none => none
    | some p => match chooseChild st p.childKeys qv with
      | none => none
      | some c => (collectPath st qv l c).map (fun path => pk :: path)

/-- Modelled from the spec: the leaf candidates of a search — the visited
leaf's primary keys together with their stored full vectors. -/
def searchCandidates (st : TreeState) (leafPk : PartitionKey) : List VectorWithKey :=
  match getP st leafPk with
  | none => []
  | some leaf => leaf.primChildren.filterMap fun k =>
      (getVec st k).map fun v => ⟨k, v⟩

/-- Modelled from the spec: the rerank pass re-sorts the candidate set by
exact squared distance to the query, ties broken by primary key — the
`calcTruth` ordering `dataLe`. -/
def rerank (qv : Vec) (cands : List VectorWithKey) : List VectorWithKey :=
  List.insertionSort (dataLe qv) cands

/-- The rerank pass emits its candidates sorted by (exact distance, key) —
the reference ordering of C4's `calcTruth`. -/
theorem beamSearch_rerank_sorted_aux (qv : Vec) (cands : List VectorWithKey) :
    List.Sorted (dataLe qv) (rerank qv cands) :=
  List.sorted_insertionSort _ _

/-- Modelled from the spec: `Search` as a pure function of the
transaction-visible tree — descend to a leaf, scan its quantized vectors,
rerank with fetched full vectors keeping the best `maxResults`, and report
the per-call statistics. -/
def searchTree (st : TreeState) (qv : Vec) (maxResults : ℕ) :
    Option (List PrimaryKey × SearchStats) :=
  match collectPath st qv (rootLevel st) RootKey with
  | none => none
  | some path => match path.getLast? with
    | none => none
    | some leafPk =>
      some ((((rerank qv (searchCandidates st leafPk)).take maxResults).map
          VectorWithKey.key),
        { quantizedLeafVectorCount := (searchCandidates st leafPk).length
          quantizedVectorCount := path.foldl
            (fun acc pk => acc + ((getP st pk).map fun p => p.childKeys.length).getD 0) 0
          fullVectorCount := ((rerank qv (searchCandidates st leafPk)).take
            maxResults).length
          partitionCount := path.length })

/-- One post-search fixup check: a partition found oversized during the
descent is enqueued; nothing else of the state changes. -/
def searchStep (s : TreeState) (pk : PartitionKey) : TreeState :=
  match getP s pk with
  | some p => if s.maxPartitionSize < p.childKeys.length then enqueueFixup s pk else s
  | none => s

/-- Modelled from the spec: a `Search` call with fixups suspended — the
ranked results and stats are computed from the tree, and the only state
effect is enqueueing oversized partitions discovered along the way;
partitions and vectors are untouched. -/
def searchOp (st : TreeState) (qv : Vec) (maxResults : ℕ) :
    Option ((List PrimaryKey × SearchStats) × TreeState) :=
  match searchTree st qv maxResults with
  | none => none
  | some res => match collectPath st qv (rootLevel st) RootKey with
    | none => none
    | some path => some (res, path.foldl searchStep st)

theorem getP_congr {s1 s2 : TreeState} (hp : s1.partitions = s2.partitions)
    (pk : PartitionKey) : getP s1 pk = getP s2 pk := by
  unfold getP
  rw [hp]

theorem rootLevel_congr {s1 s2 : TreeState} (hp : s1.partitions = s2.partitions) :
    rootLevel s1 = rootLevel s2 := by
  unfold rootLevel getP
  rw [hp]

theorem filterMap_congr_mem {α β : Type} {l : List α} {f g : α → Option β}
    (h : ∀ a ∈ l, f a = g a) : l.filterMap f = l.filterMap g := by
  induction l with
  | nil => rfl
  | cons a tl ih =>
    rw [List.filterMap_cons, List.filterMap_cons, h a (List.mem_cons_self a tl),
      ih (fun b hb => h b (List.mem_cons_of_mem a hb))]

theorem childCandidates_congr {s1 s2 : TreeState} (hp : s1.partitions = s2.partitions)
    (qv : Vec) : ∀ (cks : List ChildKey),
    childCandidates s1 qv cks = childCandidates s2 qv cks
  | [] => rfl
  | ChildKey.partitionKey c :: cks => by
    have ih := childCandidates_congr hp qv cks
    simp only [childCandidates, List.filterMap_cons] at ih ⊢
    rw [getP_congr hp c]
    cases getP s2 c with
    | none => exact ih
    | some p =>
      rw [ih]
  | ChildKey.primaryKey k :: cks => by
    have ih := childCandidates_congr hp qv cks
    simp only [childCandidates, List.filterMap_cons] at ih ⊢
    exact ih

theorem chooseChild_congr {s1 s2 : TreeState} (hp : s1.partitions = s2.partitions)
    (cks : List ChildKey) (qv : Vec) :
    chooseChild s1 cks qv = chooseChild s2 cks qv := by
  unfold chooseChild
  rw [childCandidates_congr hp qv cks]

theorem collectPath_congr {s1 s2 : TreeState} (hp : s1.partitions = s2.partitions)
    (qv : Vec) : ∀ (l : ℕ) (pk : PartitionKey),
    collectPath s1 qv l pk = collectPath s2 qv l pk
  | 0, pk => rfl
  | l+1, pk => by
    simp only [collectPath, getP_congr hp, chooseChild_congr hp]
    cases getP s2 pk with
    | none => rfl
    | some p =>
      dsimp only
      cases chooseChild s2 p.childKeys qv with
      | none => rfl
      | some c =>
        dsimp only
        rw [collectPath_congr hp qv l c]

theorem searchCandidates_congr {s1 s2 : TreeState} (hp : s1.partitions = s2.partitions)
    (hv : s1.vectors = s2.vectors) (leafPk : PartitionKey) :
    searchCandidates s1 leafPk = searchCandidates s2 leafPk := by
  unfold searchCandidates
  rw [getP_congr hp]
  cases getP s2 leafPk with
  | none => rfl
  | some leaf =>
    dsimp only
    exact filterMap_congr_mem (fun k2 _ => by
      show ((getVec s1 k2).map fun v => (⟨k2, v⟩ : VectorWithKey))
        = ((getVec s2 k2).map fun v => (⟨k2, v⟩ : VectorWithKey))
      rw [show getVec s1 k2 = getVec s2 k2 from by unfold getVec; rw [hv]])

theorem searchTree_congr {s1 s2 : TreeState} (hp : s1.partitions = s2.partitions)
    (hv : s1.vectors = s2.vectors) (qv : Vec) (k : ℕ) :
    searchTree s1 qv k = searchTree s2 qv k := by
  unfold searchTree
  rw [rootLevel_congr hp, collectPath_congr hp qv (rootLevel s2) RootKey]
  cases collectPath s2 qv (rootLevel s2) RootKey with
  | none => rfl
  | some path =>
    dsimp only
    cases path.getLast? with
    | none => rfl
    | some leafPk =>
      dsimp only
      rw [searchCandidates_congr hp hv leafPk]
      have hfun : (fun (acc : ℕ) pk =>
            acc + ((getP s1 pk).map fun p => p.childKeys.length).getD 0)
          = fun (acc : ℕ) pk =>
            acc + ((getP s2 pk).map fun p => p.childKeys.length).getD 0 := by
        funext acc pk
        rw [getP_congr hp]
      rw [hfun]

theorem searchStep_components (s : TreeState) (pk : PartitionKey) :
    (searchStep s pk).partitions = s.partitions ∧ (searchStep s pk).vectors = s.vectors ∧
    (searchStep s pk).nextKey = s.nextKey ∧
    (searchStep s pk).maxPartitionSize = s.maxPartitionSize := by
  unfold searchStep
  cases getP s pk with
  | none => exact ⟨rfl, rfl, rfl, rfl⟩
  | some p =>
    dsimp only
    by_cases hc : s.maxPartitionSize < p.childKeys.length
    · rw [if_pos hc]
      exact ⟨(enqueueFixup_components _ _).1, (enqueueFixup_components _ _).2.1,
        (enqueueFixup_components _ _).2.2.1, (enqueueFixup_components _ _).2.2.2⟩
    · rw [if_neg hc]
      exact ⟨rfl, rfl, rfl, rfl⟩

theorem searchFold_components : ∀ (path : List PartitionKey) (s : TreeState),
    (path.foldl searchStep s).partitions = s.partitions ∧
    (path.foldl searchStep s).vectors = s.vectors ∧
    (path.foldl searchStep s).nextKey = s.nextKey ∧
    (path.foldl searchStep s).maxPartitionSize = s.maxPartitionSize
  | [], s => ⟨rfl, rfl, rfl, rfl⟩
  | pk :: path, s => by
    simp only [List.foldl_cons]
    have h := searchStep_components s pk
    have ih := searchFold_components path (searchStep s pk)
    exact ⟨ih.1.trans h.1, ih.2.1.trans h.2.1, ih.2.2.1.trans h.2.2.1,
      ih.2.2.2.trans h.2.2.2⟩

/-- **C5**: with fixups suspended a `Search` call leaves the
transaction-visible tree (partitions and vectors) untouched, so a second
`Search` with the same query vector and options against that state returns
the very same ranked results and the very same per-call `SearchStats` —
two-run determinism of the query. -/
theorem search_idempotent (st : TreeState) (qv : Vec) (k : ℕ)
    (res : List PrimaryKey × SearchStats) (st1 : TreeState)
    (h1 : searchOp st qv k = some (res, st1)) :
    ∃ st2, searchOp st1 qv k = some (res, st2) := by
  unfold searchOp at h1
  cases hT : searchTree st qv k with
  | none =>
    rw [hT] at h1
    exact Option.noConfusion h1
  | some r =>
    rw [hT] at h1
    cases hP : collectPath st qv (rootLevel st) RootKey with
    | none =>
      rw [hP] at h1
      exact Option.noConfusion h1
    | some path =>
      rw [hP] at h1
      have h2 := Option.some.inj h1
      have hres : r = res := congrArg Prod.fst h2
      have hst1 : path.foldl searchStep st = st1 := congrArg Prod.snd h2
      have hc := searchFold_components path st
      rw [hst1] at hc
      unfold searchOp
      rw [searchTree_congr hc.1 hc.2.1 qv k, hT, rootLevel_congr hc.1,
        collectPath_congr hc.1 qv (rootLevel st) RootKey, hP, hres]
      exact ⟨path.foldl searchStep st1, rfl⟩

/-- Witness for `search_idempotent`: a search against the fresh
one-dimensional index. -/
theorem search_idempotent_witness :
    searchOp (initState 1 0 2) [0] 1
      = some ((([] : List PrimaryKey), ⟨0, 0, 0, 1⟩), initState 1 0 2) ∧
    (∃ st2, searchOp (initState 1 0 2) [0] 1
      = some ((([] : List PrimaryKey), ⟨0, 0, 0, 1⟩), st2)) :=
  ⟨rfl, search_idempotent (initState 1 0 2) [0] 1 ([], ⟨0, 0, 0, 1⟩)
    (initState 1 0 2) rfl⟩

/-- Modelled from the source `Recall` loop: each `Search` call adds its
per-call counters into the shared `SearchSet`'s stats. -/
def runSearches (st : TreeState) (k : ℕ) : SearchStats → List Vec → Option SearchStats
  | acc, [] => some acc
  | acc, qv :: qs => match searchTree st qv k with
    | none => none
    | some r => runSearches st k (statAdd acc r.2) qs

/-- The statistics of one search on its own (zero when the search fails). -/
def perCallStats (st : TreeState) (k : ℕ) (qv : Vec) : SearchStats :=
  ((searchTree st qv k).map Prod.snd).getD ⟨0, 0, 0, 0⟩

/-- The componentwise sum of the per-call statistics of a sample list. -/
def sumStats (st : TreeState) (k : ℕ) (qs : List Vec) : SearchStats :=
  qs.foldr (fun qv acc => statAdd (perCallStats st k qv) acc) ⟨0, 0, 0, 0⟩

theorem statAdd_assoc (a b c : SearchStats) :
    statAdd (statAdd a b) c = statAdd a (statAdd b c) := by
  unfold statAdd
  simp [Nat.add_assoc]

theorem statAdd_zero (a : SearchStats) : statAdd a ⟨0, 0, 0, 0⟩ = a := by
  cases a
  unfold statAdd
  simp

/-- **C6 (counterexample)**: the stats counters are NOT reset per call —
two searches through the same `SearchSet` (as the source's `Recall` loop
performs) leave the partitions counter at `2`, while a per-call reset
would leave the single-call value `1`.  `Recall` instead divides the
accumulated counters by `numSamples`, which is only meaningful because
they accumulate. -/
theorem searchStats_not_reset :
    runSearches (initState 1 0 2) 1 ⟨0, 0, 0, 0⟩ [[0], [0]] = some ⟨0, 0, 0, 2⟩ ∧
    perCallStats (initState 1 0 2) 1 [0] = ⟨0, 0, 0, 1⟩ ∧
    (⟨0, 0, 0, 2⟩ : SearchStats) ≠ ⟨0, 0, 0, 1⟩ :=
  ⟨rfl, rfl, by decide⟩

/-- **C6 (amended)**: the `SearchStats` counters accumulate across `Search`
calls on the same `SearchSet` — folding a sample list through one set adds
the componentwise sum of the per-call stats to the set's previous value
(so the source's `Recall` obtains per-search means by dividing by the
sample count, and stats after a search reflect every call made on that
set, not only the last one). -/
theorem searchStats_accumulate : ∀ (qs : List Vec) (st : TreeState) (k : ℕ)
    (acc : SearchStats),
    (∀ qv ∈ qs, (searchTree st qv k).isSome = true) →
    runSearches st k acc qs = some (statAdd acc (sumStats st k qs))
  | [], st, k, acc, _ => by
    rw [show sumStats st k [] = ⟨0, 0, 0, 0⟩ from rfl, statAdd_zero]
    rfl
  | qv :: qs, st, k, acc, h => by
    cases hT : searchTree st qv k with
    | none =>
      have hs := h qv (List.mem_cons_self _ _)
      rw [hT] at hs
      exact absurd hs (by simp)
    | some r =>
      have ih := searchStats_accumulate qs st k (statAdd acc r.2)
        (fun q hq => h q (List.mem_cons_of_mem _ hq))
      show (match searchTree st qv k with
        | none => none
        | some r => runSearches st k (statAdd acc r.2) qs)
        = some (statAdd acc (sumStats st k (qv :: qs)))
      rw [hT]
      dsimp only
      rw [ih, statAdd_assoc]
      have hpc : perCallStats st k qv = r.2 := by
        unfold perCallStats
        rw [hT]
        rfl
      rw [show sumStats st k (qv :: qs)
        = statAdd (perCallStats st k qv) (sumStats st k qs) from rfl, hpc]

/-- Witness for `searchStats_accumulate`: two searches against the fresh
one-dimensional index. -/
theorem searchStats_accumulate_witness :
    (∀ qv ∈ [[(0 : ℚ)], [0]], (searchTree (initState 1 0 2) qv 1).isSome = true) ∧
    runSearches (initState 1 0 2) 1 ⟨0, 0, 0, 0⟩ [[0], [0]]
      = some (statAdd ⟨0, 0, 0, 0⟩ (sumStats (initState 1 0 2) 1 [[0], [0]])) :=
  ⟨by decide, searchStats_accumulate [[0], [0]] (initState 1 0 2) 1 ⟨0, 0, 0, 0⟩
    (by decide)⟩

end VecIndex
